import Mathlib

/-!
Verification of the request-lifecycle and post-step bookkeeping core of the
mlc-llm serving engine (`src/cpp/serve/engine_actions/action_commons.cc`,
data model in `src/cpp/serve/request_state.h`).

The C++ is shallowly embedded: the mutable engine state becomes an explicit
`EngineState` value threaded through the functions, and every externally
visible call (prefix cache, model KV cache, ID manager, stream callback)
additionally emits an `Event` into a trace so that claims about which calls
are made can be stated.  `int64_t` fields become `Int`.  Fallible spots of
the C++ (an unchecked `as<TokenDataNode>()` dereference, `back()` on an
empty array, ICHECK preconditions) are rendered with `Option`.
-/

namespace MlcServe

/-- SampleResult: of the C++ struct only `sampled_token_id.first` (the token
id) is ever read by the code under verification; the float probability and
the top-logprob list are never inspected, so they are not modelled. -/
structure SampleResult where
  sampled_token_id : Int
deriving DecidableEq, Repr

/-- Data is a tagged variant: `TokenData` with its token ids, or an opaque
other-modality block (image, audio) of which only the length is visible. -/
inductive Data where
  | tokenData (token_ids : List Int)
  | imageData (len : Nat)
  | audioData (len : Nat)
deriving DecidableEq, Repr

/-- Length accessor `data->GetLength()`. -/
def Data.GetLength : Data → Nat
  | .tokenData ts => ts.length
  | .imageData n => n
  | .audioData n => n

/-- The C++ downcast `data.as<TokenDataNode>()`: the token ids when the block
is a TokenData, `none` (a null pointer in the C++) otherwise. -/
def Data.asTokenData : Data → Option (List Int)
  | .tokenData ts => some ts
  | .imageData _ => none
  | .audioData _ => none

structure DebugConfig where
  pinned_system_prompt : Bool
deriving DecidableEq, Repr

structure GenerationConfig where
  n : Nat
  logprobs : Nat
  debug_config : Option DebugConfig
deriving DecidableEq, Repr

structure Request where
  id : String
  inputs : List Data
  generation_cfg : GenerationConfig
deriving DecidableEq, Repr

/-- The pinned check of `RemoveRequestStateEntry`:
`generation_cfg->debug_config.has_value() && debug_config.value().pinned_system_prompt`. -/
def Request.pinned (r : Request) : Bool :=
  match r.generation_cfg.debug_config with
  | some d => d.pinned_system_prompt
  | none => false

/-- RequestModelState (`request_state.h`): the per-model state of one request
state entry.  The fields the verified code reads or writes are kept;
`appeared_token_ids` and the grammar matcher are never touched by it. -/
structure RequestModelState where
  internal_id : Int
  committed_tokens : List SampleResult
  inputs : List Data
  prefilled_inputs : List Data
  cached_committed_tokens : Int
  num_prefilled_tokens : Int
  draft_output_tokens : List SampleResult
deriving DecidableEq, Repr

instance : Inhabited RequestModelState :=
  ⟨{ internal_id := -1, committed_tokens := [], inputs := [], prefilled_inputs := [],
     cached_committed_tokens := 0, num_prefilled_tokens := 0, draft_output_tokens := [] }⟩

inductive RequestStateStatus where
  | kPending
  | kAlive
  | kFinished
deriving DecidableEq, Repr

/-- Result of `GetReturnTokenIds` (declared in `request_state.h`; its body is
not among the provided sources, so its per-step result is treated as an
oracle value carried on the entry). -/
structure DeltaRequestReturn where
  delta_token_ids : List Int
  delta_logprob_json_strs : List String
  finish_reason : Option String
deriving DecidableEq, Repr

/-- RequestStateEntry: one node of a request's generation tree.
`delta_ret` is the oracle result of `GetReturnTokenIds` for the current step. -/
structure RequestStateEntry where
  status : RequestStateStatus
  request : Request
  parent_idx : Int
  child_indices : List Nat
  mstates : List RequestModelState
  tadd : Int
  tprefill_finish : Int
  delta_ret : DeltaRequestReturn
deriving DecidableEq, Repr

/-- The default entry (used where the C++ would index out of range, which it
never does on well-formed states).  Its status is Finished and it has no
children, so it is harmless to the finish-propagation invariant. -/
instance : Inhabited RequestStateEntry :=
  ⟨{ status := .kFinished,
     request := { id := "", inputs := [], generation_cfg := { n := 1, logprobs := 0, debug_config := none } },
     parent_idx := -1, child_indices := [], mstates := [], tadd := 0, tprefill_finish := 0,
     delta_ret := { delta_token_ids := [], delta_logprob_json_strs := [], finish_reason := none } }⟩

/-- Shorthand for `rsentry->mstates[0]` (the C++ indexes mstates[0] throughout). -/
def RequestStateEntry.mstate0 (e : RequestStateEntry) : RequestModelState :=
  e.mstates.getD 0 default

structure RequestState where
  entries : List RequestStateEntry
deriving DecidableEq, Repr

structure EngineStats where
  total_prefill_length : Int
  total_decode_length : Int
  request_total_prefill_time : ℚ
  request_total_decode_time : ℚ
deriving DecidableEq, Repr

/-- Modelled from the spec: the ID Manager implementation (spec section 4.A) is
not among the provided sources.  Monotonic allocation with a free list:
`GetNewId` pops the free list when possible, else advances the counter;
`RecycleId` returns an id to the free pool. -/
structure IdManager where
  next_id : Int
  free : List Int
deriving DecidableEq, Repr

def IdManager.GetNewId : IdManager → Int × IdManager
  | ⟨nx, []⟩ => (nx, ⟨nx + 1, []⟩)
  | ⟨nx, i :: rest⟩ => (i, ⟨nx, rest⟩)

def IdManager.RecycleId (m : IdManager) (id : Int) : IdManager :=
  ⟨m.next_id, id :: m.free⟩

/-- Modelled from the spec: the prefix cache implementation (spec section 4.C)
is not among the provided sources.  `seqs` is the set of internal ids the
cache currently holds, which is all `HasSequence` observes. -/
structure PrefixCache where
  seqs : List Int
deriving DecidableEq, Repr

def PrefixCache.HasSequence (pc : PrefixCache) (id : Int) : Bool :=
  pc.seqs.contains id

/-- Modelled from the spec: state effect of `recycle_sequence(id, lazy)`.
Eager recycling immediately releases the sequence (the id is dropped); lazy
recycling keeps the contents reusable, so the id stays tracked until
eviction pressure, which we do not model. -/
def PrefixCache.RecycleSequenceState (pc : PrefixCache) (id : Int) (lazy : Bool) : PrefixCache :=
  if lazy then pc else ⟨pc.seqs.filter (fun i => i ≠ id)⟩

structure RequestStreamOutput where
  request_id : String
  group_delta_token_ids : List (List Int)
  group_delta_logprob_json_strs : Option (List (List String))
  group_finish_reason : List (Option String)
deriving DecidableEq, Repr

/-- Externally visible calls, recorded as a trace. -/
inductive Event where
  | extendSeq (id : Int) (tokens : List Int)
  | recycleSeq (id : Int) (lazy : Bool)
  | removeSeq (model_idx : Nat) (id : Int)
  | recycleId (id : Int)
  | newId (id : Int)
  | streamCallback (outputs : List RequestStreamOutput)
  | eraseRunning (request_id : String)
  | eraseRequestState (request_id : String)
deriving DecidableEq, Repr

/-- EngineState.  `models` holds, per model of the `Array<Model>` the C++
functions receive, the set of internal ids directly resident in that model's
KV cache (the handles are long-lived stateful objects; their state is kept
here so that `model->RemoveSequence` is a state change). -/
structure EngineState where
  waiting_queue : List Request
  running_queue : List Request
  request_states : String → Option RequestState
  prefix_cache : PrefixCache
  models : List (List Int)
  id_manager : IdManager
  stats : EngineStats

/-- The C++ `estate->GetRequestState(request)` (ICHECKs presence; out of range
gives the empty state here). -/
def EngineState.GetRequestState (s : EngineState) (rid : String) : RequestState :=
  (s.request_states rid).getD ⟨[]⟩

def EngineState.setRequestState (s : EngineState) (rid : String) (rs : RequestState) : EngineState :=
  { s with request_states := fun k => if k = rid then some rs else s.request_states k }

/-- `RemoveRequestFromModel`: remove the request from all models (usually the
KV cache), one `RemoveSequence` call per model. -/
def RemoveRequestFromModel (s : EngineState) (req_internal_id : Int) : EngineState × List Event :=
  ({ s with models := s.models.map (fun m => m.filter (fun i => i ≠ req_internal_id)) },
   (List.range s.models.length).map (fun i => Event.removeSeq i req_internal_id))

/-- `RemoveRequestStateEntry`: if the sequence is stored in the prefix cache,
recycle it lazily unless the request is pinned (then do nothing); otherwise
remove it from every model and recycle its id through the ID manager. -/
def RemoveRequestStateEntry (s : EngineState) (rsentry : RequestStateEntry) :
    EngineState × List Event :=
  let id := rsentry.mstate0.internal_id
  if s.prefix_cache.HasSequence id then
    if ¬ rsentry.request.pinned then
      ({ s with prefix_cache := s.prefix_cache.RecycleSequenceState id true },
       [Event.recycleSeq id true])
    else
      (s, [])
  else
    let p := RemoveRequestFromModel s id
    ({ p.1 with id_manager := p.1.id_manager.RecycleId id }, p.2 ++ [Event.recycleId id])

/-- Events for the `prefilled_inputs` notification loop of `UpdatePrefixCache`
(lines 112-116): each block is passed through the unchecked downcast
`data.as<TokenDataNode>()` and its `token_ids` member is read.  A block that
is not a TokenData makes the downcast yield a null pointer, so the access
faults: rendered as `none`. -/
def prefilledExtendEvents (id : Int) : List Data → Option (List Event)
  | [] => some []
  | d :: rest => do
      let ts ← d.asTokenData
      let evs ← prefilledExtendEvents id rest
      pure (Event.extendSeq id ts :: evs)

/-- The token ids pushed by the newly-decoded loop of `UpdatePrefixCache`
(lines 123-129): `committed_tokens[i].sampled_token_id.first` for `i` from
`cached_committed_tokens` up to (excluding) `|committed_tokens| - 1`, i.e.
the committed tokens at positions `[cached_committed_tokens, len - 1)` (the
final token is excluded; it is not in the KV cache yet).  Rendered as a
drop/take slice, which agrees with the C++ loop whenever
`0 ≤ cached_committed_tokens` (a negative watermark would make the C++ index
out of bounds). -/
def RequestModelState.newlyDecodedTokenIds (m : RequestModelState) : List Int :=
  ((m.committed_tokens.take (m.committed_tokens.length - 1)).drop
      m.cached_committed_tokens.toNat).map (fun t => t.sampled_token_id)

/-- Lines 110-118 of `UpdatePrefixCache`: when `prefilled_inputs` is
non-empty, announce each block to the prefix cache and drain the list. -/
def prefillDrainStep (m : RequestModelState) : Option (RequestModelState × List Event) :=
  if m.prefilled_inputs = [] then
    pure (m, ([] : List Event))
  else do
    let evs ← prefilledExtendEvents m.internal_id m.prefilled_inputs
    pure ({ m with prefilled_inputs := [] }, evs)

/-- Lines 119-133 of `UpdatePrefixCache`: when the watermark is strictly
below `|committed_tokens| - 1`, push the newly decoded committed tokens
(excluding the last, not yet in the KV cache) and advance the watermark. -/
def commitWatermarkStep (m1 : RequestModelState) : RequestModelState × List Event :=
  if m1.cached_committed_tokens < (m1.committed_tokens.length : Int) - 1 then
    ({ m1 with cached_committed_tokens := (m1.committed_tokens.length : Int) - 1 },
     [Event.extendSeq m1.internal_id m1.newlyDecodedTokenIds])
  else
    (m1, ([] : List Event))

/-- Body of the per-entry loop of `UpdatePrefixCache` (lines 109-134).  Only
`mstates[0]` is read and written.  When the prefix cache holds the entry's
internal id: announce and drain `prefilled_inputs`, then push the newly
decoded committed tokens (all but the last) and advance the watermark. -/
def updatePrefixCacheEntry (pc : PrefixCache) (e : RequestStateEntry) :
    Option (RequestStateEntry × List Event) :=
  let m := e.mstate0
  if pc.HasSequence m.internal_id then do
    let p1 ← prefillDrainStep m
    let p2 := commitWatermarkStep p1.1
    pure ({ e with mstates := e.mstates.set 0 p2.1 }, p1.2 ++ p2.2)
  else
    pure (e, [])

/-- Inner loop of `UpdatePrefixCache` over the entries of one request state. -/
def updatePrefixCacheEntries (pc : PrefixCache) :
    List RequestStateEntry → Option (List RequestStateEntry × List Event)
  | [] => some ([], [])
  | e :: rest => do
      let p1 ← updatePrefixCacheEntry pc e
      let p2 ← updatePrefixCacheEntries pc rest
      pure (p1.1 :: p2.1, p1.2 ++ p2.2)

/-- `UpdatePrefixCache(requests, estate)` (lines 105-137): for each request of
the step, update every entry of its request state against the prefix cache.
Extending a sequence does not change which ids the cache holds, so the same
`prefix_cache` value is consulted throughout, as in the C++. -/
def UpdatePrefixCache : List Request → EngineState → Option (EngineState × List Event)
  | [], s => some (s, [])
  | r :: rest, s => do
      let p1 ← updatePrefixCacheEntries s.prefix_cache (s.GetRequestState r.id).entries
      let p2 ← UpdatePrefixCache rest (s.setRequestState r.id ⟨p1.1⟩)
      pure (p2.1, p1.2 ++ p2.2)

/-- The watermark invariant of claim C1 (with the non-negativity that makes it
inductive): `0 ≤ cached_committed_tokens ≤ max 0 (|committed_tokens| - 1)`. -/
def watermarkOK (m : RequestModelState) : Prop :=
  0 ≤ m.cached_committed_tokens ∧
    m.cached_committed_tokens ≤ max 0 ((m.committed_tokens.length : Int) - 1)

instance (m : RequestModelState) : Decidable (watermarkOK m) := by
  unfold watermarkOK; infer_instance

/-- Committed token ids collected in the preemption loop (lines 249-253):
`committed_token.sampled_token_id.first` for each committed token. -/
def RequestModelState.committedTokenIds (m : RequestModelState) : List Int :=
  m.committed_tokens.map (fun t => t.sampled_token_id)

/-- The `inputs` rebuild of the preemption loop (lines 256-270).  For the root
entry (`parent_idx == -1`) start from `request->inputs`; if the final block is
a TokenData, merge the committed ids into it by concatenation, else append a
new TokenData when the committed ids are non-empty.  For a child entry the
inputs are just the committed ids as one TokenData when non-empty.  `none`
renders `inputs.back()` being read on an empty `request->inputs`. -/
def rebuildInputs (request : Request) (parent_idx : Int) (committed_token_ids : List Int) :
    Option (List Data) :=
  if parent_idx = -1 then
    match request.inputs.getLast? with
    | none => none
    | some (Data.tokenData ts) =>
        some (request.inputs.dropLast ++ [Data.tokenData (ts ++ committed_token_ids)])
    | some _ =>
        if committed_token_ids = [] then some request.inputs
        else some (request.inputs ++ [Data.tokenData committed_token_ids])
  else
    if committed_token_ids = [] then some []
    else some [Data.tokenData committed_token_ids]

/-- Body of the per-mstate preemption loop (lines 244-274).
`RemoveAllDraftTokens` (implemented outside the provided sources; per its
header comment it removes all draft tokens) runs only when the draft token
workspace manager is defined, which is abstracted to the boolean
`draft_ws_defined`; the freed workspace slots are not modelled.  The loop
resets `num_prefilled_tokens`, `prefilled_inputs` and
`cached_committed_tokens` and installs the rebuilt inputs. -/
def preemptMState (draft_ws_defined : Bool) (request : Request) (parent_idx : Int)
    (m : RequestModelState) : Option RequestModelState := do
  let inputs ← rebuildInputs request parent_idx m.committedTokenIds
  pure { m with
          draft_output_tokens := if draft_ws_defined then [] else m.draft_output_tokens,
          num_prefilled_tokens := 0,
          inputs := inputs,
          prefilled_inputs := [],
          cached_committed_tokens := 0 }

/-- The preemption loop over all mstates of the entry (lines 244-274). -/
def preemptMStates (draft_ws_defined : Bool) (request : Request) (parent_idx : Int) :
    List RequestModelState → Option (List RequestModelState)
  | [] => some []
  | m :: rest => do
      let m' ← preemptMState draft_ws_defined request parent_idx m
      let rest' ← preemptMStates draft_ws_defined request parent_idx rest
      pure (m' :: rest')

/-- Lines 226-231: the index of the last entry whose status is Alive. -/
def findLastAliveIdx (entries : List RequestStateEntry) : Option Nat :=
  (List.range entries.length).reverse.find?
    (fun i => decide ((entries.getD i default).status = RequestStateStatus.kAlive))

/-- The tail of `PreemptLastRunningRequestStateEntry` after the per-mstate
loop succeeded (lines 242, 275-295): set the entry Pending with the rebuilt
mstates, release the sequence (eager prefix-cache recycle when held, direct
removal from every model otherwise), allocate one new sequence id and stamp
it on every mstate, store the entry back, and update the queues: pop the
running queue's tail when the root was preempted, and push the request to
the waiting queue's front when the entry was not partially alive and was the
last entry. -/
def preemptResult (s : EngineState) (request : Request) (k : Nat)
    (mstates' : List RequestModelState) : EngineState × RequestStateEntry × List Event :=
  let rstate := s.GetRequestState request.id
  let rsentry := rstate.entries.getD k default
  let partially_alive : Prop := rsentry.mstate0.inputs ≠ []
  let rsentry1 := { rsentry with status := RequestStateStatus.kPending, mstates := mstates' }
  let p2 :=
    if s.prefix_cache.HasSequence rsentry1.mstate0.internal_id then
      ({ s with prefix_cache :=
            s.prefix_cache.RecycleSequenceState rsentry1.mstate0.internal_id false },
       [Event.recycleSeq rsentry1.mstate0.internal_id false])
    else
      RemoveRequestFromModel s rsentry1.mstate0.internal_id
  let np := p2.1.id_manager.GetNewId
  let rsentry2 := { rsentry1 with
    mstates := rsentry1.mstates.map (fun m => { m with internal_id := np.1 }) }
  let s2 := ({ p2.1 with id_manager := np.2 }).setRequestState request.id
    ⟨rstate.entries.set k rsentry2⟩
  let s3 :=
    if k = 0 then { s2 with running_queue := s2.running_queue.dropLast } else s2
  let s4 :=
    if (¬ partially_alive) ∧ k = rstate.entries.length - 1 then
      { s3 with waiting_queue := request :: s3.waiting_queue }
    else s3
  (s4, rsentry2, p2.2 ++ [Event.newId np.1])

/-- `PreemptLastRunningRequestStateEntry` (lines 216-295): preempt the last
Alive entry of the last running request.  `none` renders the ICHECK failures
(empty running queue, no Alive entry) and the empty-`request->inputs` read
inside the rebuild. -/
def PreemptLastRunningRequestStateEntry (s : EngineState) (draft_ws_defined : Bool) :
    Option (EngineState × RequestStateEntry × List Event) := do
  let request ← s.running_queue.getLast?
  let k ← findLastAliveIdx (s.GetRequestState request.id).entries
  let mstates' ← preemptMStates draft_ws_defined request
      ((s.GetRequestState request.id).entries.getD k default).parent_idx
      ((s.GetRequestState request.id).entries.getD k default).mstates
  pure (preemptResult s request k mstates')

instance : Inhabited EngineState :=
  ⟨{ waiting_queue := [], running_queue := [], request_states := fun _ => none,
     prefix_cache := ⟨[]⟩, models := [], id_manager := ⟨0, []⟩,
     stats := { total_prefill_length := 0, total_decode_length := 0,
                request_total_prefill_time := 0, request_total_decode_time := 0 } }⟩

/-- Concrete playground state for witness instantiations: request "w" with a
single root entry whose sequence id 5 is held by the prefix cache. -/
def reqW : Request :=
  { id := "w", inputs := [Data.tokenData [1, 2]],
    generation_cfg := { n := 1, logprobs := 0, debug_config := none } }

def mstW : RequestModelState :=
  { internal_id := 5, committed_tokens := [⟨11⟩, ⟨12⟩, ⟨13⟩], inputs := [],
    prefilled_inputs := [Data.tokenData [1, 2]], cached_committed_tokens := 0,
    num_prefilled_tokens := 2, draft_output_tokens := [] }

def entW : RequestStateEntry :=
  { status := .kAlive, request := reqW, parent_idx := -1, child_indices := [],
    mstates := [mstW], tadd := 3, tprefill_finish := 10,
    delta_ret := { delta_token_ids := [13], delta_logprob_json_strs := [], finish_reason := none } }

def stateW : EngineState :=
  { waiting_queue := [], running_queue := [reqW],
    request_states := fun k => if k = "w" then some ⟨[entW]⟩ else none,
    prefix_cache := ⟨[5]⟩, models := [[7]], id_manager := ⟨20, []⟩,
    stats := { total_prefill_length := 0, total_decode_length := 0,
               request_total_prefill_time := 0, request_total_decode_time := 0 } }

/-- Concrete state refuting claim C7: request "x" has one entry, held by the
prefix cache, whose `prefilled_inputs` contains an image block. -/
def reqX : Request :=
  { id := "x", inputs := [Data.imageData 5],
    generation_cfg := { n := 1, logprobs := 0, debug_config := none } }

def mstX : RequestModelState :=
  { internal_id := 9, committed_tokens := [], inputs := [],
    prefilled_inputs := [Data.imageData 5], cached_committed_tokens := 0,
    num_prefilled_tokens := 5, draft_output_tokens := [] }

def entX : RequestStateEntry :=
  { status := .kAlive, request := reqX, parent_idx := -1, child_indices := [],
    mstates := [mstX], tadd := 0, tprefill_finish := 0,
    delta_ret := { delta_token_ids := [], delta_logprob_json_strs := [], finish_reason := none } }

def stateX : EngineState :=
  { waiting_queue := [], running_queue := [reqX],
    request_states := fun k => if k = "x" then some ⟨[entX]⟩ else none,
    prefix_cache := ⟨[9]⟩, models := [[]], id_manager := ⟨1, []⟩,
    stats := { total_prefill_length := 0, total_decode_length := 0,
               request_total_prefill_time := 0, request_total_decode_time := 0 } }

/-- Set the status of entry `idx` of request `rid` (in the C++ a mutation of
the shared entry object; here an explicit update of the stored state). -/
def setEntryStatus (s : EngineState) (rid : String) (idx : Nat)
    (st : RequestStateStatus) : EngineState :=
  s.setRequestState rid
    ⟨(s.GetRequestState rid).entries.set idx
      { (s.GetRequestState rid).entries.getD idx default with status := st }⟩

/-- Lines 59-65 of `ProcessFinishedRequestStateEntries`: whether every child
of `parent` is Finished. -/
def allChildrenFinished (rs : RequestState) (parent : RequestStateEntry) : Bool :=
  parent.child_indices.all
    (fun c => decide ((rs.entries.getD c default).status = RequestStateStatus.kFinished))

/-- The climb loop of `ProcessFinishedRequestStateEntries` (lines 58-78): as
long as all children of the current parent are Finished, mark the parent
Finished, release its resources, and move to its parent.  The C++ while loop
terminates because entries are topologically ordered; here the recursion
carries fuel (`entries.length` at the call site always suffices). -/
def finishClimb : Nat → EngineState → String → Int → EngineState × Int × List Event
  | 0, s, _, parent_idx => (s, parent_idx, [])
  | Nat.succ fuel, s, rid, parent_idx =>
    if parent_idx = -1 then (s, parent_idx, [])
    else
      let rs := s.GetRequestState rid
      let parent := rs.entries.getD parent_idx.toNat default
      if allChildrenFinished rs parent then
        let s1 := setEntryStatus s rid parent_idx.toNat RequestStateStatus.kFinished
        let p2 := RemoveRequestStateEntry s1 parent
        let p3 := finishClimb fuel p2.1 rid parent.parent_idx
        (p3.1, p3.2.1, p2.2 ++ p3.2.2)
      else (s, parent_idx, [])

/-- The C++ `std::find` over the running queue plus `erase` (line 82-85):
drop the first element with the given request id (requests are identified by
their id). -/
def eraseFirstRequest : List Request → String → List Request
  | [], _ => []
  | r :: rest, rid => if r.id = rid then rest else r :: eraseFirstRequest rest rid

def eraseRequestState (s : EngineState) (rid : String) : EngineState :=
  { s with request_states := fun k => if k = rid then none else s.request_states k }

/-- Lines 80-101: the whole request is done.  Erase it from the running queue
and the request states, then update the aggregate statistics: prefill time
by `tprefill_finish - tadd` of the root, decode time by `now -
tprefill_finish` of the root, and total decode length by the sum of
`|mstates[0].committed_tokens|` over all entries minus `generation_cfg.n`.
Timestamps are nanosecond counts; the division by 1e9 mirrors the source's
conversion to seconds (exact here, in ℚ). -/
def retireRequest (s : EngineState) (request : Request) (tnow : Int) :
    EngineState × List Event :=
  let rstate := s.GetRequestState request.id
  let s1 := { s with running_queue := eraseFirstRequest s.running_queue request.id }
  let s2 := eraseRequestState s1 request.id
  let root := rstate.entries.getD 0 default
  let decodeLen := (rstate.entries.map
      (fun e => (e.mstate0.committed_tokens.length : Int))).sum
    - (request.generation_cfg.n : Int)
  ({ s2 with stats := { s2.stats with
      request_total_prefill_time := s2.stats.request_total_prefill_time +
        ((root.tprefill_finish - root.tadd : Int) : ℚ) / 1000000000,
      request_total_decode_time := s2.stats.request_total_decode_time +
        ((tnow - root.tprefill_finish : Int) : ℚ) / 1000000000,
      total_decode_length := s2.stats.total_decode_length + decodeLen } },
   [Event.eraseRunning request.id, Event.eraseRequestState request.id])

/-- One iteration of the loop of `ProcessFinishedRequestStateEntries`
(lines 48-101) on the finished entry `idx` of request `rid`: mark it
Finished (the ICHECK at line 50 requires it to be a leaf), release its
resources, climb toward the root, and retire the whole request when the
climb passed the root (`parent_idx` reached -1). -/
def processOneFinished (tnow : Int) (s : EngineState) (rid : String) (idx : Nat) :
    EngineState × List Event :=
  let s1 := setEntryStatus s rid idx RequestStateStatus.kFinished
  let e := (s1.GetRequestState rid).entries.getD idx default
  let p2 := RemoveRequestStateEntry s1 e
  let fuel := (p2.1.GetRequestState rid).entries.length
  let p3 := finishClimb fuel p2.1 rid e.parent_idx
  if p3.2.1 = -1 then
    let p4 := retireRequest p3.1 e.request tnow
    (p4.1, p2.2 ++ p3.2.2 ++ p4.2)
  else (p3.1, p2.2 ++ p3.2.2)

/-- `ProcessFinishedRequestStateEntries` (lines 43-103): process each
finished entry, given as a (request id, entry index) pair, in order. -/
def ProcessFinishedRequestStateEntries :
    List (String × Nat) → EngineState → Int → EngineState × List Event
  | [], s, _ => (s, [])
  | (rid, idx) :: rest, s, tnow =>
    let p1 := processOneFinished tnow s rid idx
    let p2 := ProcessFinishedRequestStateEntries rest p1.1 tnow
    (p2.1, p1.2 ++ p2.2)

/-- Where the climb of `processOneFinished` ends: the final `parent_idx`
value.  `-1` means the climb passed the root and the request is retired. -/
def finishClimbOutcome (s : EngineState) (rid : String) (idx : Nat) : Int :=
  let s1 := setEntryStatus s rid idx RequestStateStatus.kFinished
  let e := (s1.GetRequestState rid).entries.getD idx default
  let p2 := RemoveRequestStateEntry s1 e
  (finishClimb ((p2.1.GetRequestState rid).entries.length) p2.1 rid e.parent_idx).2.1

/-- The post-order invariant of claim C3: every Finished entry has all its
children Finished.  getD-indexed; the default entry is Finished with no
children, so out-of-range indices are harmless. -/
def childrenFinishedInv (rs : RequestState) : Prop :=
  ∀ i : Nat, (rs.entries.getD i default).status = RequestStateStatus.kFinished →
    ∀ c ∈ (rs.entries.getD i default).child_indices,
      (rs.entries.getD c default).status = RequestStateStatus.kFinished

/-- Status-only evolution of one request state: same number of entries, and
each entry unchanged except possibly its status. -/
def entriesStatusOnly (rs rs' : RequestState) : Prop :=
  rs'.entries.length = rs.entries.length ∧
  ∀ i : Nat, ∃ st, rs'.entries.getD i default =
    { rs.entries.getD i default with status := st }

def Event.isStreamCallback : Event → Bool
  | .streamCallback _ => true
  | _ => false

def Event.isErase : Event → Bool
  | .eraseRunning _ => true
  | .eraseRequestState _ => true
  | _ => false

/-- The prefill-stats pass of `ActionStepPostProcess` (lines 151-160): the
total length of all still-unannounced prefilled blocks of all entries of the
requests of this step.  The per-entry non-emptiness guard at line 154 is
redundant (an empty list contributes zero). -/
def prefillStatsLength (s : EngineState) (requests : List Request) : Int :=
  (requests.map (fun r =>
    (((s.GetRequestState r.id).entries.map
      (fun e => (e.mstate0.prefilled_inputs.map
        (fun d => (d.GetLength : Int))).sum)).sum))).sum

def addPrefillStats (s : EngineState) (requests : List Request) : EngineState :=
  { s with stats := { s.stats with
      total_prefill_length := s.stats.total_prefill_length + prefillStatsLength s requests } }

/-- Line 180: the entry feeding generation `i` of a request:
`entries[0]` when `n == 1`, else `entries[i + 1]`. -/
def selectEntry (rs : RequestState) (n : Nat) (i : Nat) : RequestStateEntry :=
  if n = 1 then rs.entries.getD 0 default else rs.entries.getD (i + 1) default

/-- The per-request body of the delta-collection loop (lines 168-204):
gather the `GetReturnTokenIds` results of the `n` generation entries; record
every entry with a defined finish reason as finished; and when any entry has
a defined finish reason or non-empty delta token ids, build the request's
stream output, attaching the logprob JSON strings only when
`generation_cfg.logprobs > 0`. -/
def collectRequest (s : EngineState) (r : Request) :
    Option RequestStreamOutput × List (String × Nat) :=
  let n := r.generation_cfg.n
  let rs := s.GetRequestState r.id
  let rets := (List.range n).map (fun i => (selectEntry rs n i).delta_ret)
  let finished := (List.range n).filterMap (fun i =>
    if ((selectEntry rs n i).delta_ret.finish_reason).isSome then
      some (r.id, if n = 1 then 0 else i + 1)
    else none)
  let invoke_callback := rets.any (fun dr =>
    dr.finish_reason.isSome || !(dr.delta_token_ids.isEmpty))
  let out :=
    if invoke_callback then
      some { request_id := r.id,
             group_delta_token_ids := rets.map (fun dr => dr.delta_token_ids),
             group_delta_logprob_json_strs :=
               if r.generation_cfg.logprobs > 0 then
                 some (rets.map (fun dr => dr.delta_logprob_json_strs))
               else none,
             group_finish_reason := rets.map (fun dr => dr.finish_reason) }
    else none
  (out, finished)

/-- `ActionStepPostProcess` (lines 139-214): add the prefill stats, update
the prefix cache, collect the deltas and finish reasons, fire the stream
callback once with the whole batch, then process the finished entries.
`tnow` is the wall clock read inside the retire branch. -/
def ActionStepPostProcess (requests : List Request) (s : EngineState) (tnow : Int) :
    Option (EngineState × List Event) := do
  let s0 := addPrefillStats s requests
  let p1 ← UpdatePrefixCache requests s0
  let outs := requests.filterMap (fun r => (collectRequest p1.1 r).1)
  let finished := (requests.map (fun r => (collectRequest p1.1 r).2)).flatten
  let p2 := ProcessFinishedRequestStateEntries finished p1.1 tnow
  pure (p2.1, p1.2 ++ [Event.streamCallback outs] ++ p2.2)

/-- Concrete state refuting claim C8: request "y" has one entry whose
sequence id 9 is NOT held by the prefix cache, with an unannounced prefilled
TokenData block of length 2 and no deltas this step. -/
def reqY : Request :=
  { id := "y", inputs := [Data.tokenData [1, 2]],
    generation_cfg := { n := 1, logprobs := 0, debug_config := none } }

def mstY : RequestModelState :=
  { internal_id := 9, committed_tokens := [], inputs := [],
    prefilled_inputs := [Data.tokenData [1, 2]], cached_committed_tokens := 0,
    num_prefilled_tokens := 2, draft_output_tokens := [] }

def entY : RequestStateEntry :=
  { status := .kAlive, request := reqY, parent_idx := -1, child_indices := [],
    mstates := [mstY], tadd := 0, tprefill_finish := 0,
    delta_ret := { delta_token_ids := [], delta_logprob_json_strs := [], finish_reason := none } }

def stateY : EngineState :=
  { waiting_queue := [], running_queue := [reqY],
    request_states := fun rid => if rid = "y" then some ⟨[entY]⟩ else none,
    prefix_cache := ⟨[]⟩, models := [[9]], id_manager := ⟨1, []⟩,
    stats := { total_prefill_length := 0, total_decode_length := 0,
               request_total_prefill_time := 0, request_total_decode_time := 0 } }

/-- Claim C2: retiring one finished request state entry.  If the prefix cache
holds its internal id and the request has a pinned system prompt, nothing is
touched; if the cache holds the id and the request is not pinned, exactly one
lazy recycle_sequence call is made and nothing else changes; if the cache does
not hold the id, the sequence is removed from every model's KV cache and the
id is recycled through the ID manager. -/
theorem C2_remove_request_state_entry (s : EngineState) (e : RequestStateEntry) :
    (s.prefix_cache.HasSequence e.mstate0.internal_id = true → e.request.pinned = true →
      RemoveRequestStateEntry s e = (s, [])) ∧
    (s.prefix_cache.HasSequence e.mstate0.internal_id = true → e.request.pinned = false →
      RemoveRequestStateEntry s e = (s, [Event.recycleSeq e.mstate0.internal_id true])) ∧
    (s.prefix_cache.HasSequence e.mstate0.internal_id = false →
      (RemoveRequestStateEntry s e).2 =
        (List.range s.models.length).map (fun i => Event.removeSeq i e.mstate0.internal_id)
          ++ [Event.recycleId e.mstate0.internal_id] ∧
      (∀ m ∈ (RemoveRequestStateEntry s e).1.models, e.mstate0.internal_id ∉ m) ∧
      (RemoveRequestStateEntry s e).1.id_manager =
        s.id_manager.RecycleId e.mstate0.internal_id ∧
      (RemoveRequestStateEntry s e).1.prefix_cache = s.prefix_cache) := by
  refine ⟨?_, ?_, ?_⟩
  · intro hhas hpin
    simp [RemoveRequestStateEntry, hhas, hpin]
  · intro hhas hpin
    simp [RemoveRequestStateEntry, hhas, hpin, PrefixCache.RecycleSequenceState]
  · intro hhas
    refine ⟨?_, ?_, ?_, ?_⟩
    · simp [RemoveRequestStateEntry, hhas, RemoveRequestFromModel]
    · intro m hm
      simp only [RemoveRequestStateEntry, hhas, Bool.false_eq_true, if_false,
        RemoveRequestFromModel, List.mem_map] at hm
      obtain ⟨m0, _, rfl⟩ := hm
      intro hmem
      rcases List.mem_filter.mp hmem with ⟨_, hne⟩
      simp at hne
    · simp [RemoveRequestStateEntry, hhas, RemoveRequestFromModel]
    · simp [RemoveRequestStateEntry, hhas, RemoveRequestFromModel]

/-- Concrete playground for the preemption witnesses: request "p" is the only
running request; its single root entry is Alive and held by the prefix cache
with id 3; two committed tokens; no pending inputs. -/
def reqP : Request :=
  { id := "p", inputs := [Data.tokenData [1, 2]],
    generation_cfg := { n := 1, logprobs := 0, debug_config := none } }

def mstP : RequestModelState :=
  { internal_id := 3, committed_tokens := [⟨21⟩, ⟨22⟩], inputs := [],
    prefilled_inputs := [], cached_committed_tokens := 1,
    num_prefilled_tokens := 2, draft_output_tokens := [] }

def entP : RequestStateEntry :=
  { status := .kAlive, request := reqP, parent_idx := -1, child_indices := [],
    mstates := [mstP], tadd := 0, tprefill_finish := 0,
    delta_ret := { delta_token_ids := [], delta_logprob_json_strs := [], finish_reason := none } }

def stateP : EngineState :=
  { waiting_queue := [], running_queue := [reqP],
    request_states := fun rid => if rid = "p" then some ⟨[entP]⟩ else none,
    prefix_cache := ⟨[3]⟩, models := [[8]], id_manager := ⟨10, []⟩,
    stats := { total_prefill_length := 0, total_decode_length := 0,
               request_total_prefill_time := 0, request_total_decode_time := 0 } }

/-- The concrete preemption run on `stateP`, for witness statements. -/
def preP : EngineState × RequestStateEntry × List Event :=
  (PreemptLastRunningRequestStateEntry stateP false).getD (default, default, [])

/-- Witness for C2 at a concrete input: the entry of request "w" is held by
the prefix cache and not pinned, so exactly one lazy recycle call is made. -/
theorem C2_remove_request_state_entry_witness :
    RemoveRequestStateEntry stateW entW = (stateW, [Event.recycleSeq 5 true]) := by
  have h := (C2_remove_request_state_entry stateW entW).2.1 (by decide) (by decide)
  simpa using h

theorem watermarkOK_default : watermarkOK ((default : RequestStateEntry).mstate0) := by
  decide

theorem getRS_set_self (s : EngineState) (rid : String) (rs : RequestState) :
    (s.setRequestState rid rs).GetRequestState rid = rs := by
  simp [EngineState.setRequestState, EngineState.GetRequestState]

theorem getRS_set_ne (s : EngineState) (rid rid' : String) (rs : RequestState)
    (h : rid' ≠ rid) :
    (s.setRequestState rid rs).GetRequestState rid' = s.GetRequestState rid' := by
  simp [EngineState.setRequestState, EngineState.GetRequestState, h]

theorem prefillDrainStep_some (m m1 : RequestModelState) (evs : List Event)
    (h : prefillDrainStep m = some (m1, evs)) :
    m1 = { m with prefilled_inputs := [] } := by
  unfold prefillDrainStep at h
  by_cases hp : m.prefilled_inputs = []
  · rw [if_pos hp] at h
    simp only [pure, Option.some.injEq, Prod.mk.injEq] at h
    have hm : m = m1 := h.1
    subst hm
    have heq : ({ m with prefilled_inputs := m.prefilled_inputs } : RequestModelState)
        = { m with prefilled_inputs := [] } := by rw [hp]
    exact heq
  · rw [if_neg hp] at h
    simp only [bind, Option.bind_eq_some, pure, Option.some.injEq, Prod.mk.injEq] at h
    obtain ⟨evs0, -, h1, -⟩ := h
    exact h1.symm

theorem commitWatermarkStep_watermark (m1 : RequestModelState) (hw : watermarkOK m1) :
    watermarkOK (commitWatermarkStep m1).1 := by
  obtain ⟨hw1, hw2⟩ := hw
  by_cases hlt : m1.cached_committed_tokens < (m1.committed_tokens.length : Int) - 1
  · unfold commitWatermarkStep
    rw [if_pos hlt]
    unfold watermarkOK
    constructor
    · show (0 : Int) ≤ (m1.committed_tokens.length : Int) - 1
      omega
    · show ((m1.committed_tokens.length : Int) - 1) ≤
        max 0 ((m1.committed_tokens.length : Int) - 1)
      exact le_max_right _ _
  · unfold commitWatermarkStep
    rw [if_neg hlt]
    exact ⟨hw1, hw2⟩

theorem updPCEntry_not_held (pc : PrefixCache) (e : RequestStateEntry)
    (h : pc.HasSequence e.mstate0.internal_id = false) :
    updatePrefixCacheEntry pc e = some (e, []) := by
  simp [updatePrefixCacheEntry, h]

theorem updPCEntry_held_eq (pc : PrefixCache) (e : RequestStateEntry)
    (hh : pc.HasSequence e.mstate0.internal_id = true)
    (m1 : RequestModelState) (evs1 : List Event)
    (hd : prefillDrainStep e.mstate0 = some (m1, evs1)) :
    updatePrefixCacheEntry pc e =
      some ({ e with mstates := e.mstates.set 0 (commitWatermarkStep m1).1 },
            evs1 ++ (commitWatermarkStep m1).2) := by
  simp [updatePrefixCacheEntry, hh, hd]

theorem updPCEntry_watermark (pc : PrefixCache) (e e' : RequestStateEntry) (evs : List Event)
    (h : updatePrefixCacheEntry pc e = some (e', evs))
    (hw : watermarkOK e.mstate0) : watermarkOK e'.mstate0 := by
  by_cases hh : pc.HasSequence e.mstate0.internal_id
  · cases hd : prefillDrainStep e.mstate0 with
    | none =>
      unfold updatePrefixCacheEntry at h
      rw [if_pos hh, hd] at h
      simp [bind] at h
    | some p1 =>
      obtain ⟨m1, evs1⟩ := p1
      rw [updPCEntry_held_eq pc e hh m1 evs1 hd] at h
      injection h with h1
      injection h1 with he hevs
      subst he
      have hm1 : m1 = { e.mstate0 with prefilled_inputs := [] } :=
        prefillDrainStep_some _ _ _ hd
      have hwm1 : watermarkOK m1 := by rw [hm1]; exact hw
      show watermarkOK ((e.mstates.set 0 (commitWatermarkStep m1).1).getD 0 default)
      cases hms : e.mstates with
      | nil => exact watermarkOK_default
      | cons m0 ms => exact commitWatermarkStep_watermark m1 hwm1
  · rw [updPCEntry_not_held pc e (by simpa using hh)] at h
    injection h with h1
    injection h1 with he hevs
    subst he
    exact hw

theorem updPCEntries_length (pc : PrefixCache) (es es' : List RequestStateEntry)
    (evs : List Event) (h : updatePrefixCacheEntries pc es = some (es', evs)) :
    es'.length = es.length := by
  induction es generalizing es' evs with
  | nil => cases h; rfl
  | cons e rest ih =>
    unfold updatePrefixCacheEntries at h
    cases h1 : updatePrefixCacheEntry pc e with
    | none => rw [h1] at h; simp at h
    | some p1 =>
      rw [h1] at h
      cases h2 : updatePrefixCacheEntries pc rest with
      | none => rw [h2] at h; simp at h
      | some p2 =>
        rw [h2] at h
        simp at h
        obtain ⟨hes, -⟩ := h
        subst hes
        simp [ih p2.1 p2.2 (by rw [h2])]

theorem updPCEntries_rel (pc : PrefixCache) (es es' : List RequestStateEntry)
    (evs : List Event) (h : updatePrefixCacheEntries pc es = some (es', evs)) :
    ∀ i, i < es.length →
      ∃ evs2, updatePrefixCacheEntry pc (es.getD i default) = some (es'.getD i default, evs2) := by
  induction es generalizing es' evs with
  | nil => intro i hi; cases hi
  | cons e rest ih =>
    unfold updatePrefixCacheEntries at h
    cases h1 : updatePrefixCacheEntry pc e with
    | none => rw [h1] at h; simp at h
    | some p1 =>
      rw [h1] at h
      cases h2 : updatePrefixCacheEntries pc rest with
      | none => rw [h2] at h; simp at h
      | some p2 =>
        rw [h2] at h
        simp at h
        obtain ⟨hes, -⟩ := h
        subst hes
        intro i hi
        match i with
        | 0 => exact ⟨p1.2, by simpa using h1⟩
        | Nat.succ j =>
          have hj : j < rest.length := by simpa using hi
          simpa using ih p2.1 p2.2 (by rw [h2]) j hj

theorem updatePrefixCache_watermark (requests : List Request) :
    ∀ (s s' : EngineState) (evs : List Event),
      UpdatePrefixCache requests s = some (s', evs) →
      (∀ rid i, watermarkOK (((s.GetRequestState rid).entries.getD i default).mstate0)) →
      (∀ rid i, watermarkOK (((s'.GetRequestState rid).entries.getD i default).mstate0)) := by
  induction requests with
  | nil =>
    intro s s' evs h hinv
    cases h
    exact hinv
  | cons r rest ih =>
    intro s s' evs h hinv
    unfold UpdatePrefixCache at h
    simp only [bind, Option.bind_eq_some, pure, Option.some.injEq, Prod.mk.injEq] at h
    obtain ⟨p1, h1, p2, h2, h3, -⟩ := h
    subst h3
    refine ih _ _ _ h2 ?_
    intro rid i
    by_cases hr : rid = r.id
    · subst hr
      rw [getRS_set_self]
      by_cases hi : i < (s.GetRequestState r.id).entries.length
      · obtain ⟨evs2, he⟩ := updPCEntries_rel _ _ _ _ h1 i hi
        exact updPCEntry_watermark _ _ _ _ he (hinv r.id i)
      · have hlen := updPCEntries_length _ _ _ _ h1
        have hdef : (p1.1).getD i default = default := by
          apply List.getD_eq_default
          omega
        show watermarkOK (((p1.1).getD i default).mstate0)
        rw [hdef]
        exact watermarkOK_default
    · rw [getRS_set_ne _ _ _ _ hr]
      exact hinv rid i

theorem updPCEntry_behavior (pc : PrefixCache) (e e' : RequestStateEntry) (evs : List Event)
    (h : updatePrefixCacheEntry pc e = some (e', evs))
    (hh : pc.HasSequence e.mstate0.internal_id = true) :
    (e.mstate0.cached_committed_tokens < (e.mstate0.committed_tokens.length : Int) - 1 →
      e'.mstate0.cached_committed_tokens = (e.mstate0.committed_tokens.length : Int) - 1 ∧
      Event.extendSeq e.mstate0.internal_id e.mstate0.newlyDecodedTokenIds ∈ evs) ∧
    (¬ e.mstate0.cached_committed_tokens < (e.mstate0.committed_tokens.length : Int) - 1 →
      e'.mstate0.cached_committed_tokens = e.mstate0.cached_committed_tokens) := by
  cases hd : prefillDrainStep e.mstate0 with
  | none =>
    unfold updatePrefixCacheEntry at h
    rw [if_pos hh, hd] at h
    simp [bind] at h
  | some p1 =>
    obtain ⟨m1, evs1⟩ := p1
    rw [updPCEntry_held_eq pc e hh m1 evs1 hd] at h
    injection h with h1
    injection h1 with he hevs
    subst he
    subst hevs
    have hm1 : m1 = { e.mstate0 with prefilled_inputs := [] } :=
      prefillDrainStep_some _ _ _ hd
    subst hm1
    constructor
    · intro hlt
      have hcw : commitWatermarkStep
            ({ e.mstate0 with prefilled_inputs := [] } : RequestModelState) =
          ({ e.mstate0 with
              prefilled_inputs := [],
              cached_committed_tokens := (e.mstate0.committed_tokens.length : Int) - 1 },
           [Event.extendSeq e.mstate0.internal_id e.mstate0.newlyDecodedTokenIds]) := by
        unfold commitWatermarkStep
        rw [if_pos hlt]
        rfl
      constructor
      · show ((e.mstates.set 0 (commitWatermarkStep _).1).getD 0
            default).cached_committed_tokens = _
        rw [hcw]
        cases hms : e.mstates with
        | nil =>
          exfalso
          have hm0 : e.mstate0 = default := by
            simp [RequestStateEntry.mstate0, hms]
          rw [hm0] at hlt
          revert hlt
          decide
        | cons m0 ms => rfl
      · rw [hcw]
        exact List.mem_append_right _ (List.mem_singleton.mpr rfl)
    · intro hge
      have hcw : commitWatermarkStep
            ({ e.mstate0 with prefilled_inputs := [] } : RequestModelState) =
          ({ e.mstate0 with prefilled_inputs := [] }, ([] : List Event)) := by
        unfold commitWatermarkStep
        rw [if_neg hge]
      show ((e.mstates.set 0 (commitWatermarkStep _).1).getD 0
          default).cached_committed_tokens = _
      rw [hcw]
      cases hms : e.mstates with
      | nil =>
        have hm0 : e.mstate0 = default := by
          simp [RequestStateEntry.mstate0, hms]
        rw [hm0]
        rfl
      | cons m0 ms => rfl

/-- Claim C1: after `UpdatePrefixCache` the watermark of every entry satisfies
`cached_committed_tokens ≤ max 0 (|committed_tokens| - 1)` (given it did
before, which is how the engine maintains it step to step); and per entry
held by the prefix cache, whenever the watermark is strictly below
`|committed_tokens| - 1`, exactly the committed tokens at positions
`[cached_committed_tokens, |committed_tokens| - 1)` are pushed through one
`extend_sequence` call (the final committed token is never pushed) and the
watermark is set to `|committed_tokens| - 1`; otherwise it is unchanged. -/
theorem C1_update_prefix_cache_watermark (requests : List Request) (s s' : EngineState)
    (evs : List Event) (h : UpdatePrefixCache requests s = some (s', evs))
    (hinv : ∀ rid i, watermarkOK (((s.GetRequestState rid).entries.getD i default).mstate0)) :
    (∀ rid i,
      ((s'.GetRequestState rid).entries.getD i default).mstate0.cached_committed_tokens ≤
        max 0
          ((((s'.GetRequestState rid).entries.getD i
              default).mstate0.committed_tokens.length : Int) - 1)) ∧
    (∀ pc e e' evs2, updatePrefixCacheEntry pc e = some (e', evs2) →
      pc.HasSequence e.mstate0.internal_id = true →
      (e.mstate0.cached_committed_tokens < (e.mstate0.committed_tokens.length : Int) - 1 →
        e'.mstate0.cached_committed_tokens = (e.mstate0.committed_tokens.length : Int) - 1 ∧
        Event.extendSeq e.mstate0.internal_id e.mstate0.newlyDecodedTokenIds ∈ evs2) ∧
      (¬ e.mstate0.cached_committed_tokens < (e.mstate0.committed_tokens.length : Int) - 1 →
        e'.mstate0.cached_committed_tokens = e.mstate0.cached_committed_tokens)) := by
  constructor
  · intro rid i
    exact (updatePrefixCache_watermark requests s s' evs h hinv rid i).2
  · intro pc e e' evs2 he hh
    exact updPCEntry_behavior pc e e' evs2 he hh

/-- Witness for C1 at a concrete input: request "w", whose single entry has
three committed tokens and watermark 0, ends with watermark within bound. -/
theorem C1_update_prefix_cache_watermark_witness :
    ((((UpdatePrefixCache [reqW] stateW).getD (stateW, [])).1.GetRequestState
        "w").entries.getD 0 default).mstate0.cached_committed_tokens ≤
      max 0
        (((((UpdatePrefixCache [reqW] stateW).getD (stateW, [])).1.GetRequestState
            "w").entries.getD 0 default).mstate0.committed_tokens.length - 1) := by
  have hsome : UpdatePrefixCache [reqW] stateW =
      some ((UpdatePrefixCache [reqW] stateW).getD (stateW, [])) := rfl
  have hinv : ∀ rid i,
      watermarkOK (((stateW.GetRequestState rid).entries.getD i default).mstate0) := by
    intro rid i
    by_cases hr : rid = "w"
    · subst hr
      have hget : stateW.GetRequestState "w" = ⟨[entW]⟩ := rfl
      rw [hget]
      match i with
      | 0 => decide
      | Nat.succ j =>
        simp only [List.getD_cons_succ, List.getD_nil]
        exact watermarkOK_default
    · have hget : stateW.GetRequestState rid = ⟨[]⟩ := by
        simp [stateW, EngineState.GetRequestState, hr]
      rw [hget]
      simp only [List.getD_nil]
      exact watermarkOK_default
  exact (C1_update_prefix_cache_watermark [reqW] stateW _ _ hsome hinv).1 "w" 0

theorem commitWatermarkStep_prefilled (m : RequestModelState) :
    (commitWatermarkStep m).1.prefilled_inputs = m.prefilled_inputs := by
  unfold commitWatermarkStep
  by_cases hlt : m.cached_committed_tokens < (m.committed_tokens.length : Int) - 1
  · rw [if_pos hlt]
  · rw [if_neg hlt]

theorem commitWatermarkStep_internal (m : RequestModelState) :
    (commitWatermarkStep m).1.internal_id = m.internal_id := by
  unfold commitWatermarkStep
  by_cases hlt : m.cached_committed_tokens < (m.committed_tokens.length : Int) - 1
  · rw [if_pos hlt]
  · rw [if_neg hlt]

theorem prefilledExtendEvents_isSome (id : Int) (l : List Data)
    (h : ∀ d ∈ l, (d.asTokenData).isSome = true) :
    (prefilledExtendEvents id l).isSome = true := by
  induction l with
  | nil => rfl
  | cons d rest ih =>
    obtain ⟨ts, hts⟩ := Option.isSome_iff_exists.mp (h d (by simp))
    obtain ⟨evs, hevs⟩ :=
      Option.isSome_iff_exists.mp (ih (fun d' hd' => h d' (by simp [hd'])))
    simp [prefilledExtendEvents, bind, hts, hevs]

theorem prefilledExtendEvents_mem (id : Int) (l : List Data) (evs : List Event)
    (h : prefilledExtendEvents id l = some evs) :
    ∀ d ∈ l, ∀ ts, d.asTokenData = some ts → Event.extendSeq id ts ∈ evs := by
  induction l generalizing evs with
  | nil =>
    intro d hd
    cases hd
  | cons d0 rest ih =>
    intro d hd ts hts
    unfold prefilledExtendEvents at h
    simp only [bind, Option.bind_eq_some, pure, Option.some.injEq] at h
    obtain ⟨ts0, hts0, evs0, hevs0, hevs⟩ := h
    subst hevs
    rcases List.mem_cons.mp hd with hd0 | hd'
    · subst hd0
      rw [hts0] at hts
      injection hts with hts
      subst hts
      exact List.mem_cons_self _ _
    · exact List.mem_cons_of_mem _ (ih evs0 hevs0 d hd' ts hts)

theorem prefillDrainStep_events (m m1 : RequestModelState) (evs : List Event)
    (h : prefillDrainStep m = some (m1, evs)) :
    ∀ d ∈ m.prefilled_inputs, ∀ ts, d.asTokenData = some ts →
      Event.extendSeq m.internal_id ts ∈ evs := by
  unfold prefillDrainStep at h
  by_cases hp : m.prefilled_inputs = []
  · intro d hd
    rw [hp] at hd
    cases hd
  · rw [if_neg hp] at h
    simp only [bind, Option.bind_eq_some, pure, Option.some.injEq, Prod.mk.injEq] at h
    obtain ⟨evs0, hevs0, -, hevs⟩ := h
    subst hevs
    exact prefilledExtendEvents_mem _ _ _ hevs0

theorem updPCEntry_isSome (pc : PrefixCache) (e : RequestStateEntry)
    (hall : pc.HasSequence e.mstate0.internal_id = true →
      ∀ d ∈ e.mstate0.prefilled_inputs, (d.asTokenData).isSome = true) :
    (updatePrefixCacheEntry pc e).isSome = true := by
  by_cases hh : pc.HasSequence e.mstate0.internal_id
  · have hps : (prefillDrainStep e.mstate0).isSome = true := by
      unfold prefillDrainStep
      by_cases hp : e.mstate0.prefilled_inputs = []
      · rw [if_pos hp]
        rfl
      · rw [if_neg hp]
        obtain ⟨evs, hevs⟩ := Option.isSome_iff_exists.mp
          (prefilledExtendEvents_isSome e.mstate0.internal_id e.mstate0.prefilled_inputs
            (hall hh))
        simp [bind, hevs]
    obtain ⟨p1, hp1⟩ := Option.isSome_iff_exists.mp hps
    rw [updPCEntry_held_eq pc e hh p1.1 p1.2 (by rw [hp1])]
    rfl
  · rw [updPCEntry_not_held pc e (by simpa using hh)]
    rfl

theorem updPCEntry_internal (pc : PrefixCache) (e e' : RequestStateEntry) (evs : List Event)
    (h : updatePrefixCacheEntry pc e = some (e', evs)) :
    e'.mstate0.internal_id = e.mstate0.internal_id := by
  by_cases hh : pc.HasSequence e.mstate0.internal_id
  · cases hd : prefillDrainStep e.mstate0 with
    | none =>
      unfold updatePrefixCacheEntry at h
      rw [if_pos hh, hd] at h
      simp [bind] at h
    | some p1 =>
      obtain ⟨m1, evs1⟩ := p1
      rw [updPCEntry_held_eq pc e hh m1 evs1 hd] at h
      injection h with h1
      injection h1 with he hevs
      subst he
      have hm1 : m1 = { e.mstate0 with prefilled_inputs := [] } :=
        prefillDrainStep_some _ _ _ hd
      show ((e.mstates.set 0 (commitWatermarkStep m1).1).getD 0 default).internal_id = _
      cases hms : e.mstates with
      | nil =>
        have hm0 : e.mstate0 = default := by
          simp [RequestStateEntry.mstate0, hms]
        rw [hm0]
        rfl
      | cons m0 ms =>
        show (commitWatermarkStep m1).1.internal_id = _
        rw [commitWatermarkStep_internal, hm1]
  · rw [updPCEntry_not_held pc e (by simpa using hh)] at h
    injection h with h1
    injection h1 with he hevs
    subst he
    rfl

theorem updPCEntry_drains (pc : PrefixCache) (e e' : RequestStateEntry) (evs : List Event)
    (h : updatePrefixCacheEntry pc e = some (e', evs))
    (hh : pc.HasSequence e.mstate0.internal_id = true) :
    e'.mstate0.prefilled_inputs = [] := by
  cases hd : prefillDrainStep e.mstate0 with
  | none =>
    unfold updatePrefixCacheEntry at h
    rw [if_pos hh, hd] at h
    simp [bind] at h
  | some p1 =>
    obtain ⟨m1, evs1⟩ := p1
    rw [updPCEntry_held_eq pc e hh m1 evs1 hd] at h
    injection h with h1
    injection h1 with he hevs
    subst he
    have hm1 : m1 = { e.mstate0 with prefilled_inputs := [] } :=
      prefillDrainStep_some _ _ _ hd
    show ((e.mstates.set 0 (commitWatermarkStep m1).1).getD 0 default).prefilled_inputs = []
    cases hms : e.mstates with
    | nil => rfl
    | cons m0 ms =>
      show (commitWatermarkStep m1).1.prefilled_inputs = []
      rw [commitWatermarkStep_prefilled, hm1]

theorem updPCEntry_extend_events (pc : PrefixCache) (e e' : RequestStateEntry)
    (evs : List Event) (h : updatePrefixCacheEntry pc e = some (e', evs))
    (hh : pc.HasSequence e.mstate0.internal_id = true) :
    ∀ d ∈ e.mstate0.prefilled_inputs, ∀ ts, d.asTokenData = some ts →
      Event.extendSeq e.mstate0.internal_id ts ∈ evs := by
  cases hd : prefillDrainStep e.mstate0 with
  | none =>
    unfold updatePrefixCacheEntry at h
    rw [if_pos hh, hd] at h
    simp [bind] at h
  | some p1 =>
    obtain ⟨m1, evs1⟩ := p1
    rw [updPCEntry_held_eq pc e hh m1 evs1 hd] at h
    injection h with h1
    injection h1 with he hevs
    subst he
    subst hevs
    intro d hd0 ts hts
    exact List.mem_append_left _ (prefillDrainStep_events _ _ _ hd d hd0 ts hts)

theorem updPCEntries_isSome (pc : PrefixCache) (es : List RequestStateEntry)
    (hall : ∀ i, i < es.length →
      pc.HasSequence ((es.getD i default).mstate0.internal_id) = true →
      ∀ d ∈ (es.getD i default).mstate0.prefilled_inputs, (d.asTokenData).isSome = true) :
    (updatePrefixCacheEntries pc es).isSome = true := by
  induction es with
  | nil => rfl
  | cons e rest ih =>
    have hs0 : (updatePrefixCacheEntry pc e).isSome = true :=
      updPCEntry_isSome pc e (by simpa using hall 0 (by simp))
    obtain ⟨p1, hp1⟩ := Option.isSome_iff_exists.mp hs0
    have hrest : (updatePrefixCacheEntries pc rest).isSome = true :=
      ih (fun i hi => by simpa using hall (i + 1) (by simpa))
    obtain ⟨p2, hp2⟩ := Option.isSome_iff_exists.mp hrest
    unfold updatePrefixCacheEntries
    simp [bind, hp1, hp2]

theorem UpdatePrefixCache_isSome (requests : List Request) :
    ∀ s : EngineState,
      (∀ rid i, s.prefix_cache.HasSequence
          (((s.GetRequestState rid).entries.getD i default).mstate0.internal_id) = true →
        ∀ d ∈ ((s.GetRequestState rid).entries.getD i default).mstate0.prefilled_inputs,
          (d.asTokenData).isSome = true) →
      (UpdatePrefixCache requests s).isSome = true := by
  induction requests with
  | nil =>
    intro s _
    rfl
  | cons r rest ih =>
    intro s hall
    have h1 : (updatePrefixCacheEntries s.prefix_cache
        (s.GetRequestState r.id).entries).isSome = true :=
      updPCEntries_isSome _ _ (fun i hi hh => hall r.id i hh)
    obtain ⟨p1, hp1⟩ := Option.isSome_iff_exists.mp h1
    have hrec : (UpdatePrefixCache rest (s.setRequestState r.id ⟨p1.1⟩)).isSome = true := by
      apply ih
      intro rid i
      by_cases hr : rid = r.id
      · subst hr
        rw [getRS_set_self]
        by_cases hi : i < (s.GetRequestState r.id).entries.length
        · obtain ⟨evs2, he⟩ := updPCEntries_rel _ _ _ _ hp1 i hi
          show s.prefix_cache.HasSequence
              (((p1.1).getD i default).mstate0.internal_id) = true →
            ∀ d ∈ ((p1.1).getD i default).mstate0.prefilled_inputs,
              (d.asTokenData).isSome = true
          intro hh d hd
          rw [updPCEntry_internal _ _ _ _ he] at hh
          rw [updPCEntry_drains _ _ _ _ he hh] at hd
          cases hd
        · have hlen := updPCEntries_length _ _ _ _ hp1
          have hdef : (p1.1).getD i default = default := by
            apply List.getD_eq_default
            omega
          show (s.setRequestState r.id ⟨p1.1⟩).prefix_cache.HasSequence
              (((p1.1).getD i default).mstate0.internal_id) = true → _
          rw [hdef]
          intro _ d hd
          cases hd
      · rw [getRS_set_ne _ _ _ _ hr]
        exact hall rid i
    obtain ⟨p2, hp2⟩ := Option.isSome_iff_exists.mp hrec
    unfold UpdatePrefixCache
    simp [bind, hp1, hp2]

/-- Counterexample to claim C7: a request whose entry is held by the prefix
cache and has an image block among `prefilled_inputs`.  The unchecked
`as<TokenDataNode>()` downcast yields a null pointer and the `token_ids`
access faults, modelled as the whole update returning `none`: non-TokenData
blocks are not skipped and not handled without fault. -/
theorem C7_counterexample_image_block : UpdatePrefixCache [reqX] stateX = none := by
  rfl

/-- Claim C7 as amended: `UpdatePrefixCache` passes every block of
`prefilled_inputs` through the unchecked TokenData downcast, so it is safe
exactly when every prefilled block of every cache-held entry is a TokenData;
under that hypothesis the update succeeds, each such entry has its
`prefilled_inputs` drained, and each block's token ids are passed to
`extend_sequence`. -/
theorem C7_update_prefix_cache_token_blocks (requests : List Request) (s : EngineState)
    (hall : ∀ rid i, s.prefix_cache.HasSequence
        (((s.GetRequestState rid).entries.getD i default).mstate0.internal_id) = true →
      ∀ d ∈ ((s.GetRequestState rid).entries.getD i default).mstate0.prefilled_inputs,
        (d.asTokenData).isSome = true) :
    (UpdatePrefixCache requests s).isSome = true ∧
    (∀ pc e e' evs, updatePrefixCacheEntry pc e = some (e', evs) →
      pc.HasSequence e.mstate0.internal_id = true →
      e'.mstate0.prefilled_inputs = [] ∧
      (∀ d ∈ e.mstate0.prefilled_inputs, ∀ ts, d.asTokenData = some ts →
        Event.extendSeq e.mstate0.internal_id ts ∈ evs)) := by
  constructor
  · exact UpdatePrefixCache_isSome requests s hall
  · intro pc e e' evs h hh
    exact ⟨updPCEntry_drains pc e e' evs h hh, updPCEntry_extend_events pc e e' evs h hh⟩

/-- Witness for the amended C7 at a concrete input: request "w" has only
TokenData prefilled blocks, so the update succeeds. -/
theorem C7_update_prefix_cache_token_blocks_witness :
    (UpdatePrefixCache [reqW] stateW).isSome = true := by
  refine (C7_update_prefix_cache_token_blocks [reqW] stateW ?_).1
  intro rid i
  by_cases hr : rid = "w"
  · subst hr
    have hget : stateW.GetRequestState "w" = ⟨[entW]⟩ := rfl
    rw [hget]
    match i with
    | 0 => decide
    | Nat.succ j =>
      simp only [List.getD_cons_succ, List.getD_nil]
      decide
  · have hget : stateW.GetRequestState rid = ⟨[]⟩ := by
      simp [stateW, EngineState.GetRequestState, hr]
    rw [hget]
    simp only [List.getD_nil]
    decide

theorem preemptMState_some (dw : Bool) (request : Request) (pidx : Int)
    (m m' : RequestModelState) (h : preemptMState dw request pidx m = some m') :
    ∃ inputs, rebuildInputs request pidx m.committedTokenIds = some inputs ∧
      m' = { m with
              draft_output_tokens := if dw then [] else m.draft_output_tokens,
              num_prefilled_tokens := 0, inputs := inputs, prefilled_inputs := [],
              cached_committed_tokens := 0 } := by
  unfold preemptMState at h
  simp only [bind, Option.bind_eq_some, pure, Option.some.injEq] at h
  obtain ⟨inputs, hin, hm⟩ := h
  exact ⟨inputs, hin, hm.symm⟩

theorem preemptMStates_some_cons (dw : Bool) (request : Request) (pidx : Int)
    (m : RequestModelState) (rest : List RequestModelState) (l' : List RequestModelState)
    (h : preemptMStates dw request pidx (m :: rest) = some l') :
    ∃ m' rest', preemptMState dw request pidx m = some m' ∧
      preemptMStates dw request pidx rest = some rest' ∧ l' = m' :: rest' := by
  unfold preemptMStates at h
  simp only [bind, Option.bind_eq_some, pure, Option.some.injEq] at h
  obtain ⟨m', hm', rest', hrest', hl⟩ := h
  exact ⟨m', rest', hm', hrest', hl.symm⟩

theorem preemptMStates_rel (dw : Bool) (request : Request) (pidx : Int) :
    ∀ (l l' : List RequestModelState), preemptMStates dw request pidx l = some l' →
      l'.length = l.length ∧
      ∀ i, i < l.length →
        preemptMState dw request pidx (l.getD i default) = some (l'.getD i default) := by
  intro l
  induction l with
  | nil =>
    intro l' h
    unfold preemptMStates at h
    injection h with h1
    subst h1
    exact ⟨rfl, fun i hi => absurd hi (by simp)⟩
  | cons m rest ih =>
    intro l' h
    obtain ⟨m', rest', hm', hrest', hl⟩ := preemptMStates_some_cons _ _ _ _ _ _ h
    subst hl
    obtain ⟨hlen, hrel⟩ := ih rest' hrest'
    refine ⟨by simp [hlen], ?_⟩
    intro i hi
    match i with
    | 0 => simpa using hm'
    | Nat.succ j => simpa using hrel j (by simpa using hi)

theorem preemptMStates_mem (dw : Bool) (request : Request) (pidx : Int) :
    ∀ (l l' : List RequestModelState), preemptMStates dw request pidx l = some l' →
      ∀ m' ∈ l', ∃ m, m ∈ l ∧ preemptMState dw request pidx m = some m' := by
  intro l
  induction l with
  | nil =>
    intro l' h
    unfold preemptMStates at h
    injection h with h1
    subst h1
    intro m' hm'
    cases hm'
  | cons m rest ih =>
    intro l' h
    obtain ⟨m0, rest', hm0, hrest', hl⟩ := preemptMStates_some_cons _ _ _ _ _ _ h
    subst hl
    intro m' hm'
    rcases List.mem_cons.mp hm' with hm1 | hm2
    · subst hm1
      exact ⟨m, List.mem_cons_self _ _, hm0⟩
    · obtain ⟨m2, hmem, hsome⟩ := ih rest' hrest' m' hm2
      exact ⟨m2, List.mem_cons_of_mem _ hmem, hsome⟩

theorem preemptMStates_internal0 (dw : Bool) (request : Request) (pidx : Int)
    (l l' : List RequestModelState) (h : preemptMStates dw request pidx l = some l') :
    (l'.getD 0 default).internal_id = (l.getD 0 default).internal_id := by
  cases l with
  | nil =>
    unfold preemptMStates at h
    injection h with h1
    subst h1
    rfl
  | cons m rest =>
    obtain ⟨m', rest', hm', hrest', hl⟩ := preemptMStates_some_cons _ _ _ _ _ _ h
    subst hl
    obtain ⟨inputs, -, hm⟩ := preemptMState_some _ _ _ _ _ hm'
    subst hm
    rfl

theorem preempt_destruct (s : EngineState) (dw : Bool)
    (s' : EngineState) (e' : RequestStateEntry) (evs : List Event)
    (request : Request) (k : Nat)
    (h : PreemptLastRunningRequestStateEntry s dw = some (s', e', evs))
    (hreq : s.running_queue.getLast? = some request)
    (hidx : findLastAliveIdx (s.GetRequestState request.id).entries = some k) :
    ∃ mstates',
      preemptMStates dw request
          ((s.GetRequestState request.id).entries.getD k default).parent_idx
          ((s.GetRequestState request.id).entries.getD k default).mstates = some mstates' ∧
      (s', e', evs) = preemptResult s request k mstates' := by
  unfold PreemptLastRunningRequestStateEntry at h
  rw [hreq] at h
  simp only [bind, Option.some_bind] at h
  rw [hidx] at h
  simp only [Option.some_bind] at h
  cases hms : preemptMStates dw request
      ((s.GetRequestState request.id).entries.getD k default).parent_idx
      ((s.GetRequestState request.id).entries.getD k default).mstates with
  | none =>
    rw [hms] at h
    simp at h
  | some ms' =>
    rw [hms] at h
    simp only [Option.some_bind, pure, Option.some.injEq] at h
    exact ⟨ms', rfl, h.symm⟩

theorem preemptResult_running (s : EngineState) (request : Request) (k : Nat)
    (ms' : List RequestModelState) :
    (preemptResult s request k ms').1.running_queue =
      (if k = 0 then s.running_queue.dropLast else s.running_queue) := by
  dsimp only [preemptResult, EngineState.setRequestState, RemoveRequestFromModel]
  by_cases hh : s.prefix_cache.HasSequence
      (RequestStateEntry.mstate0
        { (s.GetRequestState request.id).entries.getD k default with
            status := RequestStateStatus.kPending, mstates := ms' }).internal_id
  all_goals
    simp only [hh, if_true, if_false, apply_ite EngineState.running_queue]
  all_goals
    by_cases hpa : (¬ ((s.GetRequestState request.id).entries.getD k
        default).mstate0.inputs ≠ []) ∧ k = (s.GetRequestState request.id).entries.length - 1
  all_goals simp only [hpa, if_true, if_false, ite_self]
  all_goals by_cases hk : k = 0
  all_goals simp [hk]

theorem preemptResult_waiting (s : EngineState) (request : Request) (k : Nat)
    (ms' : List RequestModelState) :
    (preemptResult s request k ms').1.waiting_queue =
      (if ((s.GetRequestState request.id).entries.getD k default).mstate0.inputs = [] ∧
          k = (s.GetRequestState request.id).entries.length - 1
        then request :: s.waiting_queue else s.waiting_queue) := by
  dsimp only [preemptResult, EngineState.setRequestState, RemoveRequestFromModel]
  by_cases hh : s.prefix_cache.HasSequence
      (RequestStateEntry.mstate0
        { (s.GetRequestState request.id).entries.getD k default with
            status := RequestStateStatus.kPending, mstates := ms' }).internal_id
  all_goals
    simp only [hh, if_true, if_false, apply_ite EngineState.waiting_queue]
  all_goals by_cases hk : k = 0
  all_goals
    simp only [hk, if_true, if_false, ite_self, not_not]
  all_goals rfl

/-- Claim C5: queue updates at the end of preemption.  With `k` the tree
index of the preempted entry and partially-alive meaning its `mstates[0]`
inputs were non-empty before the rebuild: the request is removed from the
tail of the running queue iff `k = 0`, and it is inserted at the front of
the waiting queue iff it was not partially alive and `k` is the last entry
index; in every other combination both queues are unchanged. -/
theorem C5_preempt_queue_updates (s : EngineState) (dw : Bool) (s' : EngineState)
    (e' : RequestStateEntry) (evs : List Event) (request : Request) (k : Nat)
    (h : PreemptLastRunningRequestStateEntry s dw = some (s', e', evs))
    (hreq : s.running_queue.getLast? = some request)
    (hidx : findLastAliveIdx (s.GetRequestState request.id).entries = some k) :
    (s'.running_queue = if k = 0 then s.running_queue.dropLast else s.running_queue) ∧
    (s'.waiting_queue =
      if ((s.GetRequestState request.id).entries.getD k default).mstate0.inputs = [] ∧
          k = (s.GetRequestState request.id).entries.length - 1
        then request :: s.waiting_queue else s.waiting_queue) ∧
    ((s'.running_queue = s.running_queue.dropLast) ↔ k = 0) ∧
    ((s'.waiting_queue = request :: s.waiting_queue) ↔
      (((s.GetRequestState request.id).entries.getD k default).mstate0.inputs = [] ∧
        k = (s.GetRequestState request.id).entries.length - 1)) := by
  obtain ⟨ms', hms, heq⟩ := preempt_destruct s dw s' e' evs request k h hreq hidx
  have hs' : s' = (preemptResult s request k ms').1 := congrArg Prod.fst heq
  subst hs'
  have hne : s.running_queue ≠ [] := by
    intro h0
    rw [h0] at hreq
    cases hreq
  have hrun := preemptResult_running s request k ms'
  have hwait := preemptResult_waiting s request k ms'
  refine ⟨hrun, hwait, ?_, ?_⟩
  · rw [hrun]
    by_cases hk : k = 0
    · simp [hk]
    · simp only [hk, if_false]
      constructor
      · intro habs
        have := congrArg List.length habs
        rw [List.length_dropLast] at this
        have hpos : 0 < s.running_queue.length := List.length_pos.mpr hne
        omega
      · intro habs
        exact habs.elim
  · rw [hwait]
    by_cases hc : ((s.GetRequestState request.id).entries.getD k default).mstate0.inputs = [] ∧
        k = (s.GetRequestState request.id).entries.length - 1
    · simp [hc]
    · simp only [hc, if_false]
      constructor
      · intro habs
        have := congrArg List.length habs
        simp at this
      · intro habs
        exact habs.elim

/-- Witness for C5 at a concrete input: preempting the root (and only, hence
last) entry of request "p", whose pending inputs are empty, removes the
request from the running queue's tail and inserts it at the waiting queue's
front. -/
theorem C5_preempt_queue_updates_witness :
    preP.1.running_queue = [] ∧ preP.1.waiting_queue = [reqP] := by
  have h := C5_preempt_queue_updates stateP false preP.1 preP.2.1 preP.2.2 reqP 0
    rfl rfl rfl
  refine ⟨?_, ?_⟩
  · rw [h.1]
    decide
  · rw [h.2.1]
    decide

theorem getD_map_lt {α β : Type} (f : α → β) (l : List α) (i : Nat) (d : α) (d' : β)
    (h : i < l.length) : (l.map f).getD i d' = f (l.getD i d) := by
  induction l generalizing i with
  | nil => cases h
  | cons a rest ih =>
    match i with
    | 0 => rfl
    | Nat.succ j => simpa using ih j (by simpa using h)

theorem getNewId_ne (idm : IdManager) (old : Int) (hfree : old ∉ idm.free)
    (hnext : old < idm.next_id) : (idm.GetNewId).1 ≠ old := by
  obtain ⟨nx, free⟩ := idm
  dsimp only at hnext hfree
  cases free with
  | nil =>
    show nx ≠ old
    omega
  | cons i rest =>
    show i ≠ old
    intro heq
    subst heq
    exact hfree (List.mem_cons_self _ _)

theorem preemptResult_idm (s : EngineState) (request : Request) (k : Nat)
    (ms' : List RequestModelState) :
    (preemptResult s request k ms').1.id_manager = (s.id_manager.GetNewId).2 := by
  dsimp only [preemptResult, EngineState.setRequestState, RemoveRequestFromModel]
  by_cases hh : s.prefix_cache.HasSequence
      (RequestStateEntry.mstate0
        { (s.GetRequestState request.id).entries.getD k default with
            status := RequestStateStatus.kPending, mstates := ms' }).internal_id
  all_goals
    simp only [hh, if_true, if_false, apply_ite EngineState.id_manager]
  all_goals by_cases hpa : (¬ ((s.GetRequestState request.id).entries.getD k
      default).mstate0.inputs ≠ []) ∧ k = (s.GetRequestState request.id).entries.length - 1
  all_goals simp only [hpa, if_true, if_false, ite_self]
  all_goals by_cases hk : k = 0
  all_goals simp [hk]

theorem preemptResult_events (s : EngineState) (request : Request) (k : Nat)
    (ms' : List RequestModelState) :
    (preemptResult s request k ms').2.2 =
      (if s.prefix_cache.HasSequence ((ms'.getD 0 default).internal_id) then
         [Event.recycleSeq ((ms'.getD 0 default).internal_id) false]
       else (List.range s.models.length).map
         (fun i => Event.removeSeq i ((ms'.getD 0 default).internal_id)))
      ++ [Event.newId (s.id_manager.GetNewId).1] := by
  dsimp only [preemptResult, RemoveRequestFromModel, RequestStateEntry.mstate0]
  by_cases hh : s.prefix_cache.HasSequence ((ms'.getD 0 default).internal_id) = true
  · rw [if_pos hh, if_pos hh]
  · rw [if_neg hh, if_neg hh]

theorem preemptResult_entry (s : EngineState) (request : Request) (k : Nat)
    (ms' : List RequestModelState) :
    (preemptResult s request k ms').2.1 =
      { (s.GetRequestState request.id).entries.getD k default with
          status := RequestStateStatus.kPending,
          mstates := ms'.map (fun m => { m with internal_id := (s.id_manager.GetNewId).1 }) } := by
  dsimp only [preemptResult, RemoveRequestFromModel, RequestStateEntry.mstate0]
  by_cases hh : s.prefix_cache.HasSequence ((ms'.getD 0 default).internal_id) = true
  · rw [if_pos hh]
  · rw [if_neg hh]

theorem preemptResult_pc (s : EngineState) (request : Request) (k : Nat)
    (ms' : List RequestModelState) :
    (preemptResult s request k ms').1.prefix_cache =
      (if s.prefix_cache.HasSequence ((ms'.getD 0 default).internal_id) then
        s.prefix_cache.RecycleSequenceState ((ms'.getD 0 default).internal_id) false
      else s.prefix_cache) := by
  dsimp only [preemptResult, EngineState.setRequestState, RemoveRequestFromModel,
    RequestStateEntry.mstate0]
  by_cases hh : s.prefix_cache.HasSequence ((ms'.getD 0 default).internal_id)
  all_goals
    simp only [hh, if_true, if_false, apply_ite EngineState.prefix_cache]
  all_goals by_cases hpa : (¬ ((s.GetRequestState request.id).entries.getD k
      default).mstate0.inputs ≠ []) ∧ k = (s.GetRequestState request.id).entries.length - 1
  all_goals simp only [hpa, if_true, if_false, ite_self]
  all_goals by_cases hk : k = 0
  all_goals simp [hk]

theorem preemptResult_models (s : EngineState) (request : Request) (k : Nat)
    (ms' : List RequestModelState) :
    (preemptResult s request k ms').1.models =
      (if s.prefix_cache.HasSequence ((ms'.getD 0 default).internal_id) then s.models
      else s.models.map (fun mdl => mdl.filter (fun i => i ≠ (ms'.getD 0 default).internal_id))) := by
  dsimp only [preemptResult, EngineState.setRequestState, RemoveRequestFromModel,
    RequestStateEntry.mstate0]
  by_cases hh : s.prefix_cache.HasSequence ((ms'.getD 0 default).internal_id)
  all_goals
    simp only [hh, if_true, if_false, apply_ite EngineState.models]
  all_goals by_cases hpa : (¬ ((s.GetRequestState request.id).entries.getD k
      default).mstate0.inputs ≠ []) ∧ k = (s.GetRequestState request.id).entries.length - 1
  all_goals simp only [hpa, if_true, if_false, ite_self]
  all_goals by_cases hk : k = 0
  all_goals simp [hk]

/-- Claim C10: preemption never returns the preempted entry's previous
internal id to the ID manager's free pool (no RecycleId call on either
release branch), it allocates exactly one new id (the id manager advances by
exactly one GetNewId), and that same id is stamped onto every per-model
state of the entry. -/
theorem C10_preempt_id_never_recycled (s : EngineState) (dw : Bool) (s' : EngineState)
    (e' : RequestStateEntry) (evs : List Event) (request : Request) (k : Nat)
    (h : PreemptLastRunningRequestStateEntry s dw = some (s', e', evs))
    (hreq : s.running_queue.getLast? = some request)
    (hidx : findLastAliveIdx (s.GetRequestState request.id).entries = some k) :
    (∀ id, Event.recycleId id ∉ evs) ∧
    s'.id_manager = (s.id_manager.GetNewId).2 ∧
    (∀ m' ∈ e'.mstates, m'.internal_id = (s.id_manager.GetNewId).1) := by
  obtain ⟨ms', hms, heq⟩ := preempt_destruct s dw s' e' evs request k h hreq hidx
  have hs' : s' = (preemptResult s request k ms').1 := congrArg Prod.fst heq
  have he' : e' = (preemptResult s request k ms').2.1 := congrArg (fun p => p.2.1) heq
  have hevs : evs = (preemptResult s request k ms').2.2 := congrArg (fun p => p.2.2) heq
  refine ⟨?_, ?_, ?_⟩
  · intro id
    rw [hevs, preemptResult_events]
    by_cases hh : s.prefix_cache.HasSequence ((ms'.getD 0 default).internal_id) = true
    · rw [if_pos hh]
      simp
    · rw [if_neg hh]
      simp
  · rw [hs']
    exact preemptResult_idm s request k ms'
  · intro m' hm'
    rw [he', preemptResult_entry] at hm'
    simp only [List.mem_map] at hm'
    obtain ⟨m0, -, hm0⟩ := hm'
    rw [← hm0]

/-- Witness for C10 at a concrete input: preempting request "p" (old id 3,
id manager counter at 10) emits no RecycleId event and stamps the new id 10
on the entry's single mstate. -/
theorem C10_preempt_id_never_recycled_witness :
    (∀ id, Event.recycleId id ∉ preP.2.2) ∧
    preP.1.id_manager = (stateP.id_manager.GetNewId).2 ∧
    (∀ m' ∈ preP.2.1.mstates, m'.internal_id = (stateP.id_manager.GetNewId).1) := by
  exact C10_preempt_id_never_recycled stateP false preP.1 preP.2.1 preP.2.2 reqP 0
    rfl rfl rfl

/-- Claim C4: the full effect of preemption on the selected entry `e0` (the
last Alive entry, at index `k`, of the last running request).  Its status is
Pending; every mstate has `num_prefilled_tokens = 0`, empty
`prefilled_inputs` and `cached_committed_tokens = 0`; each mstate's inputs
are rebuilt through `rebuildInputs` (root: `request.inputs` with committed
ids merged into a final TokenData block or appended; child: just the
committed ids) so committed tokens are preserved; the old sequence id is
resident in neither the prefix cache nor any model afterwards (eager recycle
when the cache held it — given the held-implies-not-directly-resident
invariant `hxor` — and direct removal from every model otherwise); and every
mstate carries the one newly allocated id, different from the old id (given
the id-manager well-formedness `hfree`/`hnext`: a live id is below the
counter and not in the free pool). -/
theorem C4_preempt_entry_state (s : EngineState) (dw : Bool) (s' : EngineState)
    (e' : RequestStateEntry) (evs : List Event) (request : Request) (k : Nat)
    (e0 : RequestStateEntry)
    (h : PreemptLastRunningRequestStateEntry s dw = some (s', e', evs))
    (hreq : s.running_queue.getLast? = some request)
    (hidx : findLastAliveIdx (s.GetRequestState request.id).entries = some k)
    (he0 : e0 = (s.GetRequestState request.id).entries.getD k default)
    (hxor : s.prefix_cache.HasSequence e0.mstate0.internal_id = true →
      ∀ mdl ∈ s.models, e0.mstate0.internal_id ∉ mdl)
    (hfree : e0.mstate0.internal_id ∉ s.id_manager.free)
    (hnext : e0.mstate0.internal_id < s.id_manager.next_id) :
    e'.status = RequestStateStatus.kPending ∧
    (∀ m' ∈ e'.mstates, m'.num_prefilled_tokens = 0 ∧ m'.prefilled_inputs = [] ∧
      m'.cached_committed_tokens = 0) ∧
    (∀ i, i < e0.mstates.length →
      ∃ inputs, rebuildInputs request e0.parent_idx
          (e0.mstates.getD i default).committedTokenIds = some inputs ∧
        e'.mstates.getD i default =
          { e0.mstates.getD i default with
              draft_output_tokens :=
                if dw then [] else (e0.mstates.getD i default).draft_output_tokens,
              num_prefilled_tokens := 0,
              inputs := inputs,
              prefilled_inputs := [],
              cached_committed_tokens := 0,
              internal_id := (s.id_manager.GetNewId).1 }) ∧
    e0.mstate0.internal_id ∉ s'.prefix_cache.seqs ∧
    (∀ mdl ∈ s'.models, e0.mstate0.internal_id ∉ mdl) ∧
    (evs = (if s.prefix_cache.HasSequence e0.mstate0.internal_id = true then
        [Event.recycleSeq e0.mstate0.internal_id false]
      else (List.range s.models.length).map
        (fun i => Event.removeSeq i e0.mstate0.internal_id))
      ++ [Event.newId (s.id_manager.GetNewId).1]) ∧
    (∀ m' ∈ e'.mstates, m'.internal_id = (s.id_manager.GetNewId).1) ∧
    (s.id_manager.GetNewId).1 ≠ e0.mstate0.internal_id := by
  obtain ⟨ms', hms, heq⟩ := preempt_destruct s dw s' e' evs request k h hreq hidx
  rw [← he0] at hms
  have hs' : s' = (preemptResult s request k ms').1 := congrArg Prod.fst heq
  have he' : e' = (preemptResult s request k ms').2.1 := congrArg (fun p => p.2.1) heq
  have hevs : evs = (preemptResult s request k ms').2.2 := congrArg (fun p => p.2.2) heq
  have hid0 : (ms'.getD 0 default).internal_id = e0.mstate0.internal_id :=
    preemptMStates_internal0 dw request _ _ _ hms
  obtain ⟨hlen, hrel⟩ := preemptMStates_rel dw request _ _ _ hms
  have hentry := preemptResult_entry s request k ms'
  rw [← he0] at hentry
  refine ⟨?_, ?_, ?_, ?_, ?_, ?_, ?_, ?_⟩
  · rw [he', hentry]
  · intro m' hm'
    rw [he', hentry] at hm'
    simp only [List.mem_map] at hm'
    obtain ⟨m0, hm0mem, hm0⟩ := hm'
    obtain ⟨m1, -, hm1some⟩ := preemptMStates_mem dw request _ _ _ hms m0 hm0mem
    obtain ⟨inputs, -, hm0eq⟩ := preemptMState_some _ _ _ _ _ hm1some
    subst hm0eq
    rw [← hm0]
    exact ⟨rfl, rfl, rfl⟩
  · intro i hi
    have hrel_i := hrel i hi
    obtain ⟨inputs, hin, heqi⟩ := preemptMState_some _ _ _ _ _ hrel_i
    refine ⟨inputs, hin, ?_⟩
    rw [he', hentry]
    show (ms'.map (fun m : RequestModelState =>
        { m with internal_id := (s.id_manager.GetNewId).1 })).getD i default = _
    have hmap : (ms'.map (fun m : RequestModelState =>
        { m with internal_id := (s.id_manager.GetNewId).1 })).getD i default
        = { (ms'.getD i default) with internal_id := (s.id_manager.GetNewId).1 } :=
      getD_map_lt _ ms' i default default (by omega)
    rw [hmap, heqi]
  · rw [hs', preemptResult_pc, hid0]
    by_cases hh : s.prefix_cache.HasSequence e0.mstate0.internal_id = true
    · rw [if_pos hh]
      simp [PrefixCache.RecycleSequenceState]
    · rw [if_neg hh]
      intro hmem
      apply hh
      simp only [PrefixCache.HasSequence, List.contains, List.elem_eq_mem, decide_eq_true_eq]
      exact hmem
  · rw [hs', preemptResult_models, hid0]
    by_cases hh : s.prefix_cache.HasSequence e0.mstate0.internal_id = true
    · rw [if_pos hh]
      exact hxor hh
    · rw [if_neg hh]
      intro mdl hmdl
      simp only [List.mem_map] at hmdl
      obtain ⟨mdl0, -, hmdl0⟩ := hmdl
      rw [← hmdl0]
      intro hmem
      rcases List.mem_filter.mp hmem with ⟨-, hne⟩
      simp at hne
  · rw [hevs, preemptResult_events, hid0]
  · intro m' hm'
    rw [he', hentry] at hm'
    simp only [List.mem_map] at hm'
    obtain ⟨m0, -, hm0⟩ := hm'
    rw [← hm0]
  · exact getNewId_ne s.id_manager e0.mstate0.internal_id hfree hnext

/-- Witness for C4 at a concrete input: preempting request "p" leaves its
entry Pending, evicts old id 3 from the prefix cache, and the new id 10
differs from the old. -/
theorem C4_preempt_entry_state_witness :
    preP.2.1.status = RequestStateStatus.kPending ∧
    (3 : Int) ∉ preP.1.prefix_cache.seqs ∧
    (stateP.id_manager.GetNewId).1 ≠ (3 : Int) := by
  have h := C4_preempt_entry_state stateP false preP.1 preP.2.1 preP.2.2 reqP 0 entP
    rfl rfl rfl rfl (by decide) (by decide) (by decide)
  exact ⟨h.1, h.2.2.2.1, h.2.2.2.2.2.2.2⟩

theorem getD_set_self' {α : Type} (l : List α) (i : Nat) (v d : α) (h : i < l.length) :
    (l.set i v).getD i d = v := by
  rw [List.getD_eq_getElem?_getD, List.getElem?_set_self h]
  rfl

theorem getD_set_ne' {α : Type} (l : List α) (i j : Nat) (v d : α) (h : i ≠ j) :
    (l.set i v).getD j d = l.getD j d := by
  rw [List.getD_eq_getElem?_getD, List.getElem?_set_ne h, ← List.getD_eq_getElem?_getD]

theorem getRS_setStatus_self (s : EngineState) (rid : String) (idx : Nat)
    (st : RequestStateStatus) :
    (setEntryStatus s rid idx st).GetRequestState rid =
      ⟨(s.GetRequestState rid).entries.set idx
        { (s.GetRequestState rid).entries.getD idx default with status := st }⟩ :=
  getRS_set_self _ _ _

theorem getRS_setStatus_ne (s : EngineState) (rid rid' : String) (idx : Nat)
    (st : RequestStateStatus) (h : rid' ≠ rid) :
    (setEntryStatus s rid idx st).GetRequestState rid' = s.GetRequestState rid' :=
  getRS_set_ne _ _ _ _ h

theorem remove_rse_frame (s : EngineState) (e : RequestStateEntry) :
    (RemoveRequestStateEntry s e).1.request_states = s.request_states ∧
    (RemoveRequestStateEntry s e).1.stats = s.stats ∧
    (RemoveRequestStateEntry s e).1.running_queue = s.running_queue ∧
    (RemoveRequestStateEntry s e).1.waiting_queue = s.waiting_queue := by
  unfold RemoveRequestStateEntry RemoveRequestFromModel
  by_cases hh : s.prefix_cache.HasSequence e.mstate0.internal_id = true
  · rw [if_pos hh]
    by_cases hp : e.request.pinned = true
    · rw [if_neg (by simp [hp])]
      exact ⟨rfl, rfl, rfl, rfl⟩
    · rw [if_pos (by simp [Bool.not_eq_true] at hp ⊢; exact hp)]
      exact ⟨rfl, rfl, rfl, rfl⟩
  · rw [if_neg hh]
    exact ⟨rfl, rfl, rfl, rfl⟩

theorem remove_rse_getRS (s : EngineState) (e : RequestStateEntry) (rid : String) :
    (RemoveRequestStateEntry s e).1.GetRequestState rid = s.GetRequestState rid := by
  unfold EngineState.GetRequestState
  rw [(remove_rse_frame s e).1]

theorem entriesStatusOnly_refl (rs : RequestState) : entriesStatusOnly rs rs := by
  refine ⟨rfl, ?_⟩
  intro i
  exact ⟨(rs.entries.getD i default).status, rfl⟩

theorem entriesStatusOnly_trans (a b c : RequestState)
    (hab : entriesStatusOnly a b) (hbc : entriesStatusOnly b c) :
    entriesStatusOnly a c := by
  refine ⟨hbc.1.trans hab.1, ?_⟩
  intro i
  obtain ⟨st1, h1⟩ := hab.2 i
  obtain ⟨st2, h2⟩ := hbc.2 i
  refine ⟨st2, ?_⟩
  rw [h2, h1]

theorem setStatus_statusOnly (s : EngineState) (rid : String) (idx : Nat)
    (st : RequestStateStatus) (rid' : String) :
    entriesStatusOnly (s.GetRequestState rid')
      ((setEntryStatus s rid idx st).GetRequestState rid') := by
  by_cases hr : rid' = rid
  · subst hr
    rw [getRS_setStatus_self]
    refine ⟨by simp, ?_⟩
    intro i
    by_cases hi : i = idx
    · subst hi
      by_cases hlt : i < (s.GetRequestState rid').entries.length
      · refine ⟨st, ?_⟩
        show ((s.GetRequestState rid').entries.set i _).getD i default = _
        rw [getD_set_self' _ _ _ _ hlt]
      · refine ⟨((s.GetRequestState rid').entries.getD i default).status, ?_⟩
        show ((s.GetRequestState rid').entries.set i _).getD i default = _
        rw [List.set_eq_of_length_le (by omega)]
    · refine ⟨((s.GetRequestState rid').entries.getD i default).status, ?_⟩
      show ((s.GetRequestState rid').entries.set idx _).getD i default = _
      rw [getD_set_ne' _ _ _ _ _ (fun h => hi h.symm)]
  · rw [getRS_setStatus_ne _ _ _ _ _ hr]
    exact entriesStatusOnly_refl _

theorem finishClimb_frame : ∀ (fuel : Nat) (s : EngineState) (rid : String) (p : Int),
    (finishClimb fuel s rid p).1.stats = s.stats ∧
    (finishClimb fuel s rid p).1.running_queue = s.running_queue ∧
    (finishClimb fuel s rid p).1.waiting_queue = s.waiting_queue := by
  intro fuel
  induction fuel with
  | zero => intro s rid p; exact ⟨rfl, rfl, rfl⟩
  | succ fuel ih =>
    intro s rid p
    unfold finishClimb
    by_cases hp : p = -1
    · rw [if_pos hp]
      exact ⟨rfl, rfl, rfl⟩
    · rw [if_neg hp]
      by_cases hc : allChildrenFinished (s.GetRequestState rid)
          ((s.GetRequestState rid).entries.getD p.toNat default) = true
      · rw [if_pos hc]
        obtain ⟨h1, h2, h3⟩ := ih (RemoveRequestStateEntry
            (setEntryStatus s rid p.toNat RequestStateStatus.kFinished)
            ((s.GetRequestState rid).entries.getD p.toNat default)).1 rid
          ((s.GetRequestState rid).entries.getD p.toNat default).parent_idx
        have hrm := remove_rse_frame
          (setEntryStatus s rid p.toNat RequestStateStatus.kFinished)
          ((s.GetRequestState rid).entries.getD p.toNat default)
        exact ⟨h1.trans hrm.2.1, h2.trans hrm.2.2.1, h3.trans hrm.2.2.2⟩
      · rw [if_neg hc]
        exact ⟨rfl, rfl, rfl⟩

theorem finishClimb_statusOnly : ∀ (fuel : Nat) (s : EngineState) (rid : String) (p : Int)
    (rid' : String),
    entriesStatusOnly (s.GetRequestState rid')
      ((finishClimb fuel s rid p).1.GetRequestState rid') := by
  intro fuel
  induction fuel with
  | zero => intro s rid p rid'; exact entriesStatusOnly_refl _
  | succ fuel ih =>
    intro s rid p rid'
    unfold finishClimb
    by_cases hp : p = -1
    · rw [if_pos hp]
      exact entriesStatusOnly_refl _
    · rw [if_neg hp]
      by_cases hc : allChildrenFinished (s.GetRequestState rid)
          ((s.GetRequestState rid).entries.getD p.toNat default) = true
      · rw [if_pos hc]
        refine entriesStatusOnly_trans _ _ _ (setStatus_statusOnly s rid p.toNat
          RequestStateStatus.kFinished rid') ?_
        refine entriesStatusOnly_trans _ _ _ ?_ (ih _ rid _ rid')
        rw [remove_rse_getRS]
        exact entriesStatusOnly_refl _
      · rw [if_neg hc]
        exact entriesStatusOnly_refl _

theorem childrenFinishedInv_nil : childrenFinishedInv ⟨[]⟩ := by
  intro i hfin c hc
  simp only [List.getD_nil] at hc
  have hd : (default : RequestStateEntry).child_indices = [] := rfl
  rw [hd] at hc
  cases hc

theorem inv_setStatusFinished (s : EngineState) (rid : String) (idx : Nat)
    (hall : ∀ rid', childrenFinishedInv (s.GetRequestState rid'))
    (hc : ∀ c ∈ ((s.GetRequestState rid).entries.getD idx default).child_indices,
      ((s.GetRequestState rid).entries.getD c default).status =
        RequestStateStatus.kFinished ∨ c = idx) :
    ∀ rid', childrenFinishedInv
      ((setEntryStatus s rid idx RequestStateStatus.kFinished).GetRequestState rid') := by
  intro rid'
  by_cases hr : rid' = rid
  case neg =>
    rw [getRS_setStatus_ne _ _ _ _ _ hr]
    exact hall rid'
  subst hr
  rw [getRS_setStatus_self]
  intro i hfin c hcmem
  by_cases hidx : idx < (s.GetRequestState rid').entries.length
  · by_cases hieq : i = idx
    · subst hieq
      rw [getD_set_self' _ _ _ _ hidx] at hfin hcmem
      have hcm : c ∈ ((s.GetRequestState rid').entries.getD i default).child_indices := hcmem
      rcases hc c hcm with hfc | hceq
      · by_cases hci : c = i
        · subst hci
          rw [getD_set_self' _ _ _ _ hidx]
        · rw [getD_set_ne' _ _ _ _ _ (fun h => hci h.symm)]
          exact hfc
      · subst hceq
        rw [getD_set_self' _ _ _ _ hidx]
    · rw [getD_set_ne' _ _ _ _ _ (fun h => hieq h.symm)] at hfin hcmem
      have hkids := hall rid' i hfin c hcmem
      by_cases hci : c = idx
      · subst hci
        rw [getD_set_self' _ _ _ _ hidx]
      · rw [getD_set_ne' _ _ _ _ _ (fun h => hci h.symm)]
        exact hkids
  · rw [List.set_eq_of_length_le (by omega)] at hfin hcmem ⊢
    exact hall rid' i hfin c hcmem

theorem finishClimb_inv : ∀ (fuel : Nat) (s : EngineState) (rid : String) (p : Int),
    (∀ rid', childrenFinishedInv (s.GetRequestState rid')) →
    ∀ rid', childrenFinishedInv ((finishClimb fuel s rid p).1.GetRequestState rid') := by
  intro fuel
  induction fuel with
  | zero => intro s rid p hall; exact hall
  | succ fuel ih =>
    intro s rid p hall
    unfold finishClimb
    by_cases hp : p = -1
    · rw [if_pos hp]
      exact hall
    · rw [if_neg hp]
      by_cases hcond : allChildrenFinished (s.GetRequestState rid)
          ((s.GetRequestState rid).entries.getD p.toNat default) = true
      · rw [if_pos hcond]
        apply ih
        intro rid'
        rw [remove_rse_getRS]
        refine inv_setStatusFinished s rid p.toNat hall ?_ rid'
        intro c hcm
        left
        unfold allChildrenFinished at hcond
        have := List.all_eq_true.mp hcond c hcm
        exact of_decide_eq_true this
      · rw [if_neg hcond]
        exact hall

theorem retire_getRS (s : EngineState) (request : Request) (tnow : Int) (rid' : String) :
    (retireRequest s request tnow).1.GetRequestState rid' =
      (if rid' = request.id then ⟨[]⟩ else s.GetRequestState rid') := by
  unfold retireRequest eraseRequestState EngineState.GetRequestState
  by_cases hr : rid' = request.id
  · simp [hr]
  · simp [hr]

theorem retire_frame (s : EngineState) (request : Request) (tnow : Int) :
    (retireRequest s request tnow).1.running_queue =
      eraseFirstRequest s.running_queue request.id ∧
    (retireRequest s request tnow).1.waiting_queue = s.waiting_queue ∧
    (retireRequest s request tnow).1.request_states request.id = none :=
  ⟨rfl, rfl, by simp [retireRequest, eraseRequestState]⟩

theorem processOne_eq (tnow : Int) (s : EngineState) (rid : String) (idx : Nat)
    (s2 : EngineState) (evs1 : List Event) (s3 : EngineState) (p : Int) (evs2 : List Event)
    (h2 : RemoveRequestStateEntry (setEntryStatus s rid idx RequestStateStatus.kFinished)
        (((setEntryStatus s rid idx RequestStateStatus.kFinished).GetRequestState
          rid).entries.getD idx default) = (s2, evs1))
    (h3 : finishClimb ((s2.GetRequestState rid).entries.length) s2 rid
        (((setEntryStatus s rid idx RequestStateStatus.kFinished).GetRequestState
          rid).entries.getD idx default).parent_idx = (s3, p, evs2)) :
    processOneFinished tnow s rid idx =
      (if p = -1 then
        ((retireRequest s3 (((setEntryStatus s rid idx
            RequestStateStatus.kFinished).GetRequestState rid).entries.getD idx
            default).request tnow).1,
         evs1 ++ evs2 ++ (retireRequest s3 (((setEntryStatus s rid idx
            RequestStateStatus.kFinished).GetRequestState rid).entries.getD idx
            default).request tnow).2)
      else (s3, evs1 ++ evs2)) := by
  dsimp only [processOneFinished]
  rw [h2]
  dsimp only
  rw [h3]

theorem processOne_statusOnly (tnow : Int) (s : EngineState) (rid : String) (idx : Nat)
    (rid' : String) :
    entriesStatusOnly (s.GetRequestState rid')
      ((processOneFinished tnow s rid idx).1.GetRequestState rid') ∨
    ((processOneFinished tnow s rid idx).1.GetRequestState rid') = ⟨[]⟩ := by
  obtain ⟨s2, evs1, h2⟩ : ∃ s2 evs1,
      RemoveRequestStateEntry (setEntryStatus s rid idx RequestStateStatus.kFinished)
        (((setEntryStatus s rid idx RequestStateStatus.kFinished).GetRequestState
          rid).entries.getD idx default) = (s2, evs1) := ⟨_, _, rfl⟩
  obtain ⟨s3, p, evs2, h3⟩ : ∃ s3 p evs2,
      finishClimb ((s2.GetRequestState rid).entries.length) s2 rid
        (((setEntryStatus s rid idx RequestStateStatus.kFinished).GetRequestState
          rid).entries.getD idx default).parent_idx = (s3, p, evs2) := ⟨_, _, _, rfl⟩
  rw [processOne_eq tnow s rid idx s2 evs1 s3 p evs2 h2 h3]
  have hs2 : s2 = (RemoveRequestStateEntry
      (setEntryStatus s rid idx RequestStateStatus.kFinished)
      (((setEntryStatus s rid idx RequestStateStatus.kFinished).GetRequestState
        rid).entries.getD idx default)).1 := (congrArg Prod.fst h2).symm
  have hs3 : s3 = (finishClimb ((s2.GetRequestState rid).entries.length) s2 rid
      (((setEntryStatus s rid idx RequestStateStatus.kFinished).GetRequestState
        rid).entries.getD idx default).parent_idx).1 := (congrArg Prod.fst h3).symm
  have hso : entriesStatusOnly (s.GetRequestState rid') (s3.GetRequestState rid') := by
    refine entriesStatusOnly_trans _ _ _
      (setStatus_statusOnly s rid idx RequestStateStatus.kFinished rid') ?_
    refine entriesStatusOnly_trans _ (s2.GetRequestState rid') _ ?_ ?_
    · rw [hs2, remove_rse_getRS]
      exact entriesStatusOnly_refl _
    · rw [hs3]
      exact finishClimb_statusOnly _ _ _ _ _
  by_cases hroot : p = -1
  · rw [if_pos hroot]
    rw [retire_getRS]
    by_cases hr : rid' = (((setEntryStatus s rid idx
        RequestStateStatus.kFinished).GetRequestState rid).entries.getD idx
        default).request.id
    · right
      rw [if_pos hr]
    · left
      rw [if_neg hr]
      exact hso
  · rw [if_neg hroot]
    left
    exact hso

theorem processOne_inv (tnow : Int) (s : EngineState) (rid : String) (idx : Nat)
    (hall : ∀ rid', childrenFinishedInv (s.GetRequestState rid'))
    (hleaf : ((s.GetRequestState rid).entries.getD idx default).child_indices = []) :
    ∀ rid', childrenFinishedInv
      ((processOneFinished tnow s rid idx).1.GetRequestState rid') := by
  intro rid'
  obtain ⟨s2, evs1, h2⟩ : ∃ s2 evs1,
      RemoveRequestStateEntry (setEntryStatus s rid idx RequestStateStatus.kFinished)
        (((setEntryStatus s rid idx RequestStateStatus.kFinished).GetRequestState
          rid).entries.getD idx default) = (s2, evs1) := ⟨_, _, rfl⟩
  obtain ⟨s3, p, evs2, h3⟩ : ∃ s3 p evs2,
      finishClimb ((s2.GetRequestState rid).entries.length) s2 rid
        (((setEntryStatus s rid idx RequestStateStatus.kFinished).GetRequestState
          rid).entries.getD idx default).parent_idx = (s3, p, evs2) := ⟨_, _, _, rfl⟩
  rw [processOne_eq tnow s rid idx s2 evs1 s3 p evs2 h2 h3]
  have h1 : ∀ r', childrenFinishedInv
      ((setEntryStatus s rid idx RequestStateStatus.kFinished).GetRequestState r') := by
    apply inv_setStatusFinished s rid idx hall
    intro c hcm
    rw [hleaf] at hcm
    cases hcm
  have hs2inv : ∀ r', childrenFinishedInv (s2.GetRequestState r') := by
    intro r'
    have hs2 : s2 = (RemoveRequestStateEntry
        (setEntryStatus s rid idx RequestStateStatus.kFinished)
        (((setEntryStatus s rid idx RequestStateStatus.kFinished).GetRequestState
          rid).entries.getD idx default)).1 := (congrArg Prod.fst h2).symm
    rw [hs2, remove_rse_getRS]
    exact h1 r'
  have hs3inv : ∀ r', childrenFinishedInv (s3.GetRequestState r') := by
    have hs3 : s3 = (finishClimb ((s2.GetRequestState rid).entries.length) s2 rid
        (((setEntryStatus s rid idx RequestStateStatus.kFinished).GetRequestState
          rid).entries.getD idx default).parent_idx).1 := (congrArg Prod.fst h3).symm
    intro r'
    rw [hs3]
    exact finishClimb_inv _ _ _ _ hs2inv r'
  by_cases hroot : p = -1
  · rw [if_pos hroot]
    rw [retire_getRS]
    by_cases hr : rid' = (((setEntryStatus s rid idx
        RequestStateStatus.kFinished).GetRequestState rid).entries.getD idx
        default).request.id
    · rw [if_pos hr]
      exact childrenFinishedInv_nil
    · rw [if_neg hr]
      exact hs3inv rid'
  · rw [if_neg hroot]
    exact hs3inv rid'

theorem processList_inv (tnow : Int) : ∀ (l : List (String × Nat)) (s : EngineState),
    (∀ rid, childrenFinishedInv (s.GetRequestState rid)) →
    (∀ q ∈ l, ((s.GetRequestState q.1).entries.getD q.2 default).child_indices = []) →
    ∀ rid, childrenFinishedInv
      ((ProcessFinishedRequestStateEntries l s tnow).1.GetRequestState rid) := by
  intro l
  induction l with
  | nil => intro s hall _; exact hall
  | cons q rest ih =>
    intro s hall hleaf
    obtain ⟨rid, idx⟩ := q
    have hstep : (ProcessFinishedRequestStateEntries ((rid, idx) :: rest) s tnow).1 =
        (ProcessFinishedRequestStateEntries rest
          (processOneFinished tnow s rid idx).1 tnow).1 := rfl
    rw [hstep]
    apply ih
    · exact processOne_inv tnow s rid idx hall (hleaf (rid, idx) (by simp))
    · intro q' hq'
      rcases processOne_statusOnly tnow s rid idx q'.1 with hso | herased
      · obtain ⟨-, hpt⟩ := hso
        obtain ⟨st, hst⟩ := hpt q'.2
        rw [hst]
        show ((s.GetRequestState q'.1).entries.getD q'.2 default).child_indices = []
        exact hleaf q' (List.mem_cons_of_mem _ hq')
      · rw [herased]
        simp only [List.getD_nil]
        rfl

/-- Claim C3: finish status propagates in post-order.  Starting from any
state in which every Finished entry already has all children Finished, and
given that every entry in the finished list is a leaf (the ICHECK at line
50), every intermediate state of `ProcessFinishedRequestStateEntries` (after
any prefix of the finished list) still satisfies the invariant: a parent's
status moves to Finished only when all of its children are Finished, and at
no point is any parent Finished while one of its children is not. -/
theorem C3_finish_propagates_post_order (finished : List (String × Nat)) (s : EngineState)
    (tnow : Int)
    (hall : ∀ rid, childrenFinishedInv (s.GetRequestState rid))
    (hleaf : ∀ q ∈ finished,
      ((s.GetRequestState q.1).entries.getD q.2 default).child_indices = []) :
    ∀ pre suf, finished = pre ++ suf →
      ∀ rid, childrenFinishedInv
        ((ProcessFinishedRequestStateEntries pre s tnow).1.GetRequestState rid) := by
  intro pre suf hsplit
  apply processList_inv tnow pre s hall
  intro q hq
  exact hleaf q (by rw [hsplit]; exact List.mem_append_left _ hq)

/-- Witness for C3 at a concrete input: finishing the single (leaf, root)
entry of request "w" keeps the post-order invariant. -/
theorem C3_finish_propagates_post_order_witness :
    childrenFinishedInv
      ((ProcessFinishedRequestStateEntries [("w", 0)] stateW 0).1.GetRequestState "w") := by
  have hall : ∀ rid, childrenFinishedInv (stateW.GetRequestState rid) := by
    intro rid
    by_cases hr : rid = "w"
    · subst hr
      have hget : stateW.GetRequestState "w" = ⟨[entW]⟩ := rfl
      rw [hget]
      intro i hfin c hcm
      match i with
      | 0 => exact absurd hfin (by decide)
      | Nat.succ j =>
        simp only [List.getD_cons_succ, List.getD_nil] at hcm
        have hd : (default : RequestStateEntry).child_indices = [] := rfl
        rw [hd] at hcm
        cases hcm
    · have hget : stateW.GetRequestState rid = ⟨[]⟩ := by
        simp [stateW, EngineState.GetRequestState, hr]
      rw [hget]
      exact childrenFinishedInv_nil
  have hleaf : ∀ q ∈ [(("w" : String), (0 : Nat))],
      ((stateW.GetRequestState q.1).entries.getD q.2 default).child_indices = [] := by
    intro q hq
    have hq1 : q = ("w", 0) := by simpa using hq
    subst hq1
    rfl
  exact C3_finish_propagates_post_order [("w", 0)] stateW 0 hall hleaf
    [("w", 0)] [] rfl "w"

theorem map_congr_getD {α β : Type} (f : α → β) (d : α) :
    ∀ (l l' : List α), l'.length = l.length →
      (∀ i, i < l.length → f (l'.getD i d) = f (l.getD i d)) →
      l'.map f = l.map f := by
  intro l
  induction l with
  | nil =>
    intro l' hlen _
    rw [List.length_nil, List.length_eq_zero] at hlen
    rw [hlen]
  | cons a rest ih =>
    intro l' hlen hpt
    cases l' with
    | nil => simp at hlen
    | cons a' rest' =>
      simp only [List.map_cons]
      have h0 : f a' = f a := hpt 0 (by simp)
      rw [h0, ih rest' (by simpa using hlen)
        (fun i hi => by simpa using hpt (i + 1) (by simpa using hi))]

theorem retire_effect (s : EngineState) (request : Request) (tnow : Int) :
    (retireRequest s request tnow).1.request_states request.id = none ∧
    (retireRequest s request tnow).1.running_queue =
      eraseFirstRequest s.running_queue request.id ∧
    (retireRequest s request tnow).1.stats.request_total_prefill_time =
      s.stats.request_total_prefill_time +
        ((((s.GetRequestState request.id).entries.getD 0 default).tprefill_finish -
          ((s.GetRequestState request.id).entries.getD 0 default).tadd : Int) : ℚ)
          / 1000000000 ∧
    (retireRequest s request tnow).1.stats.request_total_decode_time =
      s.stats.request_total_decode_time +
        ((tnow - ((s.GetRequestState request.id).entries.getD 0
          default).tprefill_finish : Int) : ℚ) / 1000000000 ∧
    (retireRequest s request tnow).1.stats.total_decode_length =
      s.stats.total_decode_length +
        ((((s.GetRequestState request.id).entries.map
            (fun e => (e.mstate0.committed_tokens.length : Int))).sum) -
          (request.generation_cfg.n : Int)) := by
  refine ⟨?_, rfl, rfl, rfl, rfl⟩
  simp [retireRequest, eraseRequestState]

/-- Claim C9: when the finish climb passes the root (`parent_idx` reaches
-1) the whole request is retired in one step: erased from the running queue
and from the request states, prefill time increased by the root's
`tprefill_finish - tadd`, decode time by `now - tprefill_finish` (both in
seconds, i.e. divided by 1e9), and total decode length by the sum of
committed-token counts over all the request's entries minus
`generation_cfg.n`.  When the climb stops short of the root, none of the
aggregate statistics (nor the queues) change. -/
theorem C9_whole_request_retired (tnow : Int) (s : EngineState) (rid : String) (idx : Nat)
    (hreqid : ((s.GetRequestState rid).entries.getD idx default).request.id = rid) :
    (finishClimbOutcome s rid idx = -1 →
      (processOneFinished tnow s rid idx).1.request_states rid = none ∧
      (processOneFinished tnow s rid idx).1.running_queue =
        eraseFirstRequest s.running_queue rid ∧
      (processOneFinished tnow s rid idx).1.stats.request_total_prefill_time =
        s.stats.request_total_prefill_time +
          ((((s.GetRequestState rid).entries.getD 0 default).tprefill_finish -
            ((s.GetRequestState rid).entries.getD 0 default).tadd : Int) : ℚ)
            / 1000000000 ∧
      (processOneFinished tnow s rid idx).1.stats.request_total_decode_time =
        s.stats.request_total_decode_time +
          ((tnow - ((s.GetRequestState rid).entries.getD 0
            default).tprefill_finish : Int) : ℚ) / 1000000000 ∧
      (processOneFinished tnow s rid idx).1.stats.total_decode_length =
        s.stats.total_decode_length +
          ((((s.GetRequestState rid).entries.map
              (fun e => (e.mstate0.committed_tokens.length : Int))).sum) -
            (((s.GetRequestState rid).entries.getD idx
              default).request.generation_cfg.n : Int))) ∧
    (finishClimbOutcome s rid idx ≠ -1 →
      (processOneFinished tnow s rid idx).1.stats = s.stats ∧
      (processOneFinished tnow s rid idx).1.running_queue = s.running_queue ∧
      (processOneFinished tnow s rid idx).1.waiting_queue = s.waiting_queue) := by
  obtain ⟨s2, evs1, h2⟩ : ∃ s2 evs1,
      RemoveRequestStateEntry (setEntryStatus s rid idx RequestStateStatus.kFinished)
        (((setEntryStatus s rid idx RequestStateStatus.kFinished).GetRequestState
          rid).entries.getD idx default) = (s2, evs1) := ⟨_, _, rfl⟩
  obtain ⟨s3, p, evs2, h3⟩ : ∃ s3 p evs2,
      finishClimb ((s2.GetRequestState rid).entries.length) s2 rid
        (((setEntryStatus s rid idx RequestStateStatus.kFinished).GetRequestState
          rid).entries.getD idx default).parent_idx = (s3, p, evs2) := ⟨_, _, _, rfl⟩
  have hout : finishClimbOutcome s rid idx = p := by
    dsimp only [finishClimbOutcome]
    rw [h2]
    dsimp only
    rw [h3]
  have hpo := processOne_eq tnow s rid idx s2 evs1 s3 p evs2 h2 h3
  have hs2eq : s2 = (RemoveRequestStateEntry
      (setEntryStatus s rid idx RequestStateStatus.kFinished)
      (((setEntryStatus s rid idx RequestStateStatus.kFinished).GetRequestState
        rid).entries.getD idx default)).1 := (congrArg Prod.fst h2).symm
  have hs3eq : s3 = (finishClimb ((s2.GetRequestState rid).entries.length) s2 rid
      (((setEntryStatus s rid idx RequestStateStatus.kFinished).GetRequestState
        rid).entries.getD idx default).parent_idx).1 := (congrArg Prod.fst h3).symm
  obtain ⟨stE, hstE⟩ := (setStatus_statusOnly s rid idx RequestStateStatus.kFinished rid).2 idx
  have hEreq : (((setEntryStatus s rid idx RequestStateStatus.kFinished).GetRequestState
      rid).entries.getD idx default).request =
      ((s.GetRequestState rid).entries.getD idx default).request := by
    rw [hstE]
  have hEid : (((setEntryStatus s rid idx RequestStateStatus.kFinished).GetRequestState
      rid).entries.getD idx default).request.id = rid := by
    rw [hEreq]
    exact hreqid
  have hstats2 : s2.stats = s.stats := by
    rw [hs2eq, (remove_rse_frame _ _).2.1]
    rfl
  have hrun2 : s2.running_queue = s.running_queue := by
    rw [hs2eq, (remove_rse_frame _ _).2.2.1]
    rfl
  have hwait2 : s2.waiting_queue = s.waiting_queue := by
    rw [hs2eq, (remove_rse_frame _ _).2.2.2]
    rfl
  have hstats3 : s3.stats = s.stats := by
    rw [hs3eq, (finishClimb_frame _ _ _ _).1]
    exact hstats2
  have hrun3 : s3.running_queue = s.running_queue := by
    rw [hs3eq, (finishClimb_frame _ _ _ _).2.1]
    exact hrun2
  have hwait3 : s3.waiting_queue = s.waiting_queue := by
    rw [hs3eq, (finishClimb_frame _ _ _ _).2.2]
    exact hwait2
  have hso3 : entriesStatusOnly (s.GetRequestState rid) (s3.GetRequestState rid) := by
    refine entriesStatusOnly_trans _ _ _
      (setStatus_statusOnly s rid idx RequestStateStatus.kFinished rid) ?_
    refine entriesStatusOnly_trans _ (s2.GetRequestState rid) _ ?_ ?_
    · rw [hs2eq, remove_rse_getRS]
      exact entriesStatusOnly_refl _
    · rw [hs3eq]
      exact finishClimb_statusOnly _ _ _ _ _
  obtain ⟨st0, hst0⟩ := hso3.2 0
  have hsum : ((s3.GetRequestState rid).entries.map
      (fun e => (e.mstate0.committed_tokens.length : Int))).sum =
      ((s.GetRequestState rid).entries.map
      (fun e => (e.mstate0.committed_tokens.length : Int))).sum := by
    have hmap := map_congr_getD (fun e : RequestStateEntry =>
        (e.mstate0.committed_tokens.length : Int)) default
      (s.GetRequestState rid).entries (s3.GetRequestState rid).entries hso3.1 ?_
    · rw [hmap]
    · intro i hi
      obtain ⟨sti, hsti⟩ := hso3.2 i
      rw [hsti]
      rfl
  constructor
  · intro hneg1
    rw [hout] at hneg1
    subst hneg1
    rw [hpo, if_pos rfl]
    rw [hEreq]
    have hre := retire_effect s3
      ((s.GetRequestState rid).entries.getD idx default).request tnow
    rw [hreqid, hrun3, hstats3, hst0, hsum] at hre
    exact hre
  · intro hne1
    rw [hout] at hne1
    rw [hpo, if_neg hne1]
    exact ⟨hstats3, hrun3, hwait3⟩

/-- Witness for C9 at a concrete input: the single-entry request "w" (three
committed tokens, n = 1) is fully retired; its decode-length contribution is
3 - 1 = 2. -/
theorem C9_whole_request_retired_witness :
    (processOneFinished 30 stateW "w" 0).1.request_states "w" = none ∧
    (processOneFinished 30 stateW "w" 0).1.stats.total_decode_length = 2 := by
  have h := C9_whole_request_retired 30 stateW "w" 0 rfl
  obtain ⟨hrs, hrun, hpre, hdec, hlen⟩ := h.1 rfl
  refine ⟨hrs, ?_⟩
  rw [hlen]
  decide

theorem updatePrefixCache_untouched (requests : List Request) :
    ∀ (s s' : EngineState) (evs : List Event),
      UpdatePrefixCache requests s = some (s', evs) →
      ∀ rid, rid ∉ requests.map (fun r => r.id) →
        s'.GetRequestState rid = s.GetRequestState rid := by
  induction requests with
  | nil =>
    intro s s' evs h rid _
    cases h
    rfl
  | cons r rest ih =>
    intro s s' evs h rid hrid
    unfold UpdatePrefixCache at h
    simp only [bind, Option.bind_eq_some, pure, Option.some.injEq, Prod.mk.injEq] at h
    obtain ⟨p1, h1, p2, h2, h3, -⟩ := h
    subst h3
    simp only [List.map_cons, List.mem_cons, not_or] at hrid
    rw [ih _ _ _ h2 rid hrid.2]
    exact getRS_set_ne _ _ _ _ hrid.1

theorem updatePrefixCache_drains (requests : List Request) :
    ∀ (s s' : EngineState) (evs : List Event),
      UpdatePrefixCache requests s = some (s', evs) →
      ∀ rid, rid ∈ requests.map (fun r => r.id) → ∀ i,
        s.prefix_cache.HasSequence
          (((s'.GetRequestState rid).entries.getD i default).mstate0.internal_id) = true →
        ((s'.GetRequestState rid).entries.getD i default).mstate0.prefilled_inputs = [] := by
  induction requests with
  | nil =>
    intro s s' evs h rid hrid
    simp at hrid
  | cons r rest ih =>
    intro s s' evs h rid hrid i hheld
    unfold UpdatePrefixCache at h
    simp only [bind, Option.bind_eq_some, pure, Option.some.injEq, Prod.mk.injEq] at h
    obtain ⟨p1, h1, p2, h2, h3, -⟩ := h
    subst h3
    by_cases hmem : rid ∈ rest.map (fun r => r.id)
    · exact ih _ _ _ h2 rid hmem i hheld
    · have hrid1 : rid = r.id := by
        simp only [List.map_cons, List.mem_cons] at hrid
        rcases hrid with h0 | h0
        · exact h0
        · exact absurd h0 hmem
      subst hrid1
      have huntouched := updatePrefixCache_untouched rest _ _ _ h2 r.id hmem
      rw [huntouched] at hheld ⊢
      rw [getRS_set_self] at hheld ⊢
      by_cases hi : i < (s.GetRequestState r.id).entries.length
      · obtain ⟨evs2, he⟩ := updPCEntries_rel _ _ _ _ h1 i hi
        show ((p1.1.getD i default)).mstate0.prefilled_inputs = []
        have hheld' : s.prefix_cache.HasSequence
            ((p1.1.getD i default).mstate0.internal_id) = true := hheld
        rw [updPCEntry_internal _ _ _ _ he] at hheld'
        exact updPCEntry_drains _ _ _ _ he hheld'
      · have hlen := updPCEntries_length _ _ _ _ h1
        have hdef : (p1.1).getD i default = default := by
          apply List.getD_eq_default
          omega
        show ((p1.1.getD i default)).mstate0.prefilled_inputs = []
        rw [hdef]
        rfl

theorem entriesStatusOnly_nil_left (rs' : RequestState)
    (h : entriesStatusOnly ⟨[]⟩ rs') : rs' = ⟨[]⟩ := by
  obtain ⟨hlen, -⟩ := h
  obtain ⟨es⟩ := rs'
  simp only [List.length_nil] at hlen
  rw [List.length_eq_zero] at hlen
  rw [hlen]

theorem processList_statusOnly (tnow : Int) :
    ∀ (l : List (String × Nat)) (s : EngineState) (rid' : String),
      entriesStatusOnly (s.GetRequestState rid')
        ((ProcessFinishedRequestStateEntries l s tnow).1.GetRequestState rid') ∨
      ((ProcessFinishedRequestStateEntries l s tnow).1.GetRequestState rid') = ⟨[]⟩ := by
  intro l
  induction l with
  | nil =>
    intro s rid'
    left
    exact entriesStatusOnly_refl _
  | cons q rest ih =>
    intro s rid'
    obtain ⟨rid, idx⟩ := q
    have hstep : (ProcessFinishedRequestStateEntries ((rid, idx) :: rest) s tnow).1 =
        (ProcessFinishedRequestStateEntries rest
          (processOneFinished tnow s rid idx).1 tnow).1 := rfl
    rw [hstep]
    rcases processOne_statusOnly tnow s rid idx rid' with h1 | h1
    · rcases ih (processOneFinished tnow s rid idx).1 rid' with h2 | h2
      · left
        exact entriesStatusOnly_trans _ _ _ h1 h2
      · right
        exact h2
    · rcases ih (processOneFinished tnow s rid idx).1 rid' with h2 | h2
      · rw [h1] at h2
        right
        exact entriesStatusOnly_nil_left _ h2
      · right
        exact h2

/-- Counterexample to claim C8: request "y" has an unannounced prefilled
block but its sequence is NOT held by the prefix cache, so reconciliation
does not drain `prefilled_inputs` (the drain at line 117 sits inside the
`HasSequence` guard of line 109): after one `ActionStepPostProcess` call the
block is still there, and a second call counts its length again
(`total_prefill_length` ends at 4, not 2). -/
theorem C8_counterexample_not_drained :
    ((ActionStepPostProcess [reqY] stateY 0).map (fun q =>
      (((q.1.GetRequestState "y").entries.getD 0 default).mstate0.prefilled_inputs,
        (ActionStepPostProcess [reqY] q.1 0).map
          (fun q2 => q2.1.stats.total_prefill_length))))
      = some ([Data.tokenData [1, 2]], some 4) := by
  rfl

/-- Claim C8 as amended: a prefilled block is counted at most once only for
entries whose internal id is held by the prefix cache — those entries have
`prefilled_inputs` drained by the same step's reconciliation, so a later
call adds nothing for them.  Entries not held by the prefix cache are not
drained (see the counterexample). -/
theorem C8_prefill_blocks_drained_when_held (requests : List Request) (s : EngineState)
    (tnow : Int) (s' : EngineState) (tr : List Event)
    (h : ActionStepPostProcess requests s tnow = some (s', tr)) (r : Request)
    (hr : r ∈ requests) (i : Nat)
    (hheld : s.prefix_cache.HasSequence
      (((s'.GetRequestState r.id).entries.getD i default).mstate0.internal_id) = true) :
    ((s'.GetRequestState r.id).entries.getD i default).mstate0.prefilled_inputs = [] := by
  unfold ActionStepPostProcess at h
  simp only [bind, Option.bind_eq_some, pure, Option.some.injEq, Prod.mk.injEq] at h
  obtain ⟨p1, hp1, hs', -⟩ := h
  subst hs'
  rcases processList_statusOnly tnow
      ((requests.map (fun r => (collectRequest p1.1 r).2)).flatten) p1.1 r.id with hso | hnil
  · obtain ⟨-, hpt⟩ := hso
    obtain ⟨st, hst⟩ := hpt i
    rw [hst] at hheld ⊢
    show ((p1.1.GetRequestState r.id).entries.getD i default).mstate0.prefilled_inputs = []
    have hheld' : s.prefix_cache.HasSequence
        (((p1.1.GetRequestState r.id).entries.getD i default).mstate0.internal_id) = true :=
      hheld
    exact updatePrefixCache_drains requests _ _ _ hp1 r.id
      (List.mem_map_of_mem _ hr) i hheld'
  · rw [hnil]
    simp only [List.getD_nil]
    rfl

/-- Witness for the amended C8 at a concrete input: request "w" is held by
the prefix cache, so after the step its prefilled block list is drained. -/
theorem C8_prefill_blocks_drained_when_held_witness :
    ((((ActionStepPostProcess [reqW] stateW 30).getD (stateW, [])).1.GetRequestState
      "w").entries.getD 0 default).mstate0.prefilled_inputs = [] := by
  have hsome : ActionStepPostProcess [reqW] stateW 30 =
      some ((ActionStepPostProcess [reqW] stateW 30).getD (stateW, [])) := rfl
  exact C8_prefill_blocks_drained_when_held [reqW] stateW 30 _ _ hsome reqW
    (by simp) 0 (by rfl)

theorem prefilledExtendEvents_shape (id : Int) :
    ∀ (l : List Data) (evs : List Event), prefilledExtendEvents id l = some evs →
      ∀ ev ∈ evs, ∃ i ts, ev = Event.extendSeq i ts := by
  intro l
  induction l with
  | nil =>
    intro evs h ev hev
    unfold prefilledExtendEvents at h
    injection h with h1
    subst h1
    cases hev
  | cons d rest ih =>
    intro evs h ev hev
    unfold prefilledExtendEvents at h
    simp only [bind, Option.bind_eq_some, pure, Option.some.injEq] at h
    obtain ⟨ts, -, evs0, hevs0, hevs⟩ := h
    subst hevs
    rcases List.mem_cons.mp hev with h0 | h0
    · exact ⟨id, ts, h0⟩
    · exact ih evs0 hevs0 ev h0

theorem prefillDrainStep_events_shape (m m1 : RequestModelState) (evs : List Event)
    (h : prefillDrainStep m = some (m1, evs)) :
    ∀ ev ∈ evs, ∃ i ts, ev = Event.extendSeq i ts := by
  unfold prefillDrainStep at h
  by_cases hp : m.prefilled_inputs = []
  · rw [if_pos hp] at h
    simp only [pure, Option.some.injEq, Prod.mk.injEq] at h
    intro ev hev
    rw [← h.2] at hev
    cases hev
  · rw [if_neg hp] at h
    simp only [bind, Option.bind_eq_some, pure, Option.some.injEq, Prod.mk.injEq] at h
    obtain ⟨evs0, hevs0, -, hevs⟩ := h
    subst hevs
    exact prefilledExtendEvents_shape _ _ _ hevs0

theorem commitWatermarkStep_events_shape (m : RequestModelState) :
    ∀ ev ∈ (commitWatermarkStep m).2, ∃ i ts, ev = Event.extendSeq i ts := by
  unfold commitWatermarkStep
  by_cases hlt : m.cached_committed_tokens < (m.committed_tokens.length : Int) - 1
  · rw [if_pos hlt]
    intro ev hev
    rcases List.mem_singleton.mp hev with h0
    exact ⟨m.internal_id, m.newlyDecodedTokenIds, h0⟩
  · rw [if_neg hlt]
    intro ev hev
    cases hev

theorem updPCEntry_events_shape (pc : PrefixCache) (e e' : RequestStateEntry)
    (evs : List Event) (h : updatePrefixCacheEntry pc e = some (e', evs)) :
    ∀ ev ∈ evs, ∃ i ts, ev = Event.extendSeq i ts := by
  by_cases hh : pc.HasSequence e.mstate0.internal_id
  · cases hd : prefillDrainStep e.mstate0 with
    | none =>
      unfold updatePrefixCacheEntry at h
      rw [if_pos hh, hd] at h
      simp [bind] at h
    | some p1 =>
      obtain ⟨m1, evs1⟩ := p1
      rw [updPCEntry_held_eq pc e hh m1 evs1 hd] at h
      injection h with h1
      injection h1 with he hevs
      subst hevs
      intro ev hev
      rcases List.mem_append.mp hev with h0 | h0
      · exact prefillDrainStep_events_shape _ _ _ hd ev h0
      · exact commitWatermarkStep_events_shape m1 ev h0
  · rw [updPCEntry_not_held pc e (by simpa using hh)] at h
    injection h with h1
    injection h1 with he hevs
    subst hevs
    intro ev hev
    cases hev

theorem updPCEntries_events_shape (pc : PrefixCache) :
    ∀ (es es' : List RequestStateEntry) (evs : List Event),
      updatePrefixCacheEntries pc es = some (es', evs) →
      ∀ ev ∈ evs, ∃ i ts, ev = Event.extendSeq i ts := by
  intro es
  induction es with
  | nil =>
    intro es' evs h ev hev
    unfold updatePrefixCacheEntries at h
    simp only [Option.some.injEq, Prod.mk.injEq] at h
    rw [← h.2] at hev
    cases hev
  | cons e rest ih =>
    intro es' evs h ev hev
    unfold updatePrefixCacheEntries at h
    simp only [bind, Option.bind_eq_some, pure, Option.some.injEq, Prod.mk.injEq] at h
    obtain ⟨p1, hp1, p2, hp2, -, hevs⟩ := h
    subst hevs
    rcases List.mem_append.mp hev with h0 | h0
    · exact updPCEntry_events_shape _ _ _ _ (by rw [hp1]) ev h0
    · exact ih p2.1 p2.2 (by rw [hp2]) ev h0

theorem updatePrefixCache_events_shape (requests : List Request) :
    ∀ (s s' : EngineState) (evs : List Event),
      UpdatePrefixCache requests s = some (s', evs) →
      ∀ ev ∈ evs, ∃ i ts, ev = Event.extendSeq i ts := by
  induction requests with
  | nil =>
    intro s s' evs h ev hev
    cases h
    cases hev
  | cons r rest ih =>
    intro s s' evs h ev hev
    unfold UpdatePrefixCache at h
    simp only [bind, Option.bind_eq_some, pure, Option.some.injEq, Prod.mk.injEq] at h
    obtain ⟨p1, h1, p2, h2, -, hevs⟩ := h
    subst hevs
    rcases List.mem_append.mp hev with h0 | h0
    · exact updPCEntries_events_shape _ _ _ _ (by rw [h1]) ev h0
    · exact ih _ _ _ (by rw [h2]) ev h0

theorem remove_rse_events_shape (s : EngineState) (e : RequestStateEntry) :
    ∀ ev ∈ (RemoveRequestStateEntry s e).2, ev.isStreamCallback = false := by
  unfold RemoveRequestStateEntry RemoveRequestFromModel
  by_cases hh : s.prefix_cache.HasSequence e.mstate0.internal_id = true
  · rw [if_pos hh]
    by_cases hp : e.request.pinned = true
    · rw [if_neg (by simp [hp])]
      intro ev hev
      cases hev
    · rw [if_pos (by simp [Bool.not_eq_true] at hp ⊢; exact hp)]
      intro ev hev
      rcases List.mem_singleton.mp hev with h0
      rw [h0]
      rfl
  · rw [if_neg hh]
    intro ev hev
    rcases List.mem_append.mp hev with h0 | h0
    · rcases List.mem_map.mp h0 with ⟨i, -, hi⟩
      rw [← hi]
      rfl
    · rcases List.mem_singleton.mp h0 with h1
      rw [h1]
      rfl

theorem finishClimb_events_shape : ∀ (fuel : Nat) (s : EngineState) (rid : String) (p : Int),
    ∀ ev ∈ (finishClimb fuel s rid p).2.2, ev.isStreamCallback = false := by
  intro fuel
  induction fuel with
  | zero =>
    intro s rid p ev hev
    cases hev
  | succ fuel ih =>
    intro s rid p ev hev
    unfold finishClimb at hev
    by_cases hp : p = -1
    · rw [if_pos hp] at hev
      cases hev
    · rw [if_neg hp] at hev
      by_cases hc : allChildrenFinished (s.GetRequestState rid)
          ((s.GetRequestState rid).entries.getD p.toNat default) = true
      · rw [if_pos hc] at hev
        rcases List.mem_append.mp hev with h0 | h0
        · exact remove_rse_events_shape _ _ ev h0
        · exact ih _ rid _ ev h0
      · rw [if_neg hc] at hev
        cases hev

theorem retire_events_shape (s : EngineState) (request : Request) (tnow : Int) :
    ∀ ev ∈ (retireRequest s request tnow).2, ev.isStreamCallback = false := by
  intro ev hev
  rcases List.mem_cons.mp hev with h0 | h0
  · rw [h0]
    rfl
  · rcases List.mem_singleton.mp h0 with h1
    rw [h1]
    rfl

theorem processOne_events_shape (tnow : Int) (s : EngineState) (rid : String) (idx : Nat) :
    ∀ ev ∈ (processOneFinished tnow s rid idx).2, ev.isStreamCallback = false := by
  obtain ⟨s2, evs1, h2⟩ : ∃ s2 evs1,
      RemoveRequestStateEntry (setEntryStatus s rid idx RequestStateStatus.kFinished)
        (((setEntryStatus s rid idx RequestStateStatus.kFinished).GetRequestState
          rid).entries.getD idx default) = (s2, evs1) := ⟨_, _, rfl⟩
  obtain ⟨s3, p, evs2, h3⟩ : ∃ s3 p evs2,
      finishClimb ((s2.GetRequestState rid).entries.length) s2 rid
        (((setEntryStatus s rid idx RequestStateStatus.kFinished).GetRequestState
          rid).entries.getD idx default).parent_idx = (s3, p, evs2) := ⟨_, _, _, rfl⟩
  rw [processOne_eq tnow s rid idx s2 evs1 s3 p evs2 h2 h3]
  have hevs1 : ∀ ev ∈ evs1, ev.isStreamCallback = false := by
    intro ev hev
    apply remove_rse_events_shape
    rw [h2]
    exact hev
  have hevs2 : ∀ ev ∈ evs2, ev.isStreamCallback = false := by
    intro ev hev
    apply finishClimb_events_shape ((s2.GetRequestState rid).entries.length) s2 rid
    rw [h3]
    exact hev
  by_cases hroot : p = -1
  · rw [if_pos hroot]
    intro ev hev
    rcases List.mem_append.mp hev with h0 | h0
    · rcases List.mem_append.mp h0 with h1 | h1
      · exact hevs1 ev h1
      · exact hevs2 ev h1
    · exact retire_events_shape _ _ _ ev h0
  · rw [if_neg hroot]
    intro ev hev
    rcases List.mem_append.mp hev with h0 | h0
    · exact hevs1 ev h0
    · exact hevs2 ev h0

theorem processList_events_shape (tnow : Int) :
    ∀ (l : List (String × Nat)) (s : EngineState),
      ∀ ev ∈ (ProcessFinishedRequestStateEntries l s tnow).2,
        ev.isStreamCallback = false := by
  intro l
  induction l with
  | nil =>
    intro s ev hev
    cases hev
  | cons q rest ih =>
    intro s ev hev
    obtain ⟨rid, idx⟩ := q
    rcases List.mem_append.mp hev with h0 | h0
    · exact processOne_events_shape tnow s rid idx ev h0
    · exact ih _ ev h0

theorem updPCEntry_delta (pc : PrefixCache) (e e' : RequestStateEntry) (evs : List Event)
    (h : updatePrefixCacheEntry pc e = some (e', evs)) :
    e'.delta_ret = e.delta_ret := by
  by_cases hh : pc.HasSequence e.mstate0.internal_id
  · cases hd : prefillDrainStep e.mstate0 with
    | none =>
      unfold updatePrefixCacheEntry at h
      rw [if_pos hh, hd] at h
      simp [bind] at h
    | some p1 =>
      obtain ⟨m1, evs1⟩ := p1
      rw [updPCEntry_held_eq pc e hh m1 evs1 hd] at h
      injection h with h1
      injection h1 with he hevs
      rw [← he]
  · rw [updPCEntry_not_held pc e (by simpa using hh)] at h
    injection h with h1
    injection h1 with he hevs
    rw [← he]

theorem updPCEntries_delta (pc : PrefixCache) :
    ∀ (es es' : List RequestStateEntry) (evs : List Event),
      updatePrefixCacheEntries pc es = some (es', evs) →
      ∀ i, (es'.getD i default).delta_ret = (es.getD i default).delta_ret := by
  intro es
  induction es with
  | nil =>
    intro es' evs h i
    unfold updatePrefixCacheEntries at h
    simp only [Option.some.injEq, Prod.mk.injEq] at h
    rw [← h.1]
  | cons e rest ih =>
    intro es' evs h i
    unfold updatePrefixCacheEntries at h
    simp only [bind, Option.bind_eq_some, pure, Option.some.injEq, Prod.mk.injEq] at h
    obtain ⟨p1, hp1, p2, hp2, hes, -⟩ := h
    rw [← hes]
    match i with
    | 0 =>
      simpa using updPCEntry_delta _ _ _ _ (show updatePrefixCacheEntry pc e =
        some (p1.1, p1.2) by rw [hp1])
    | Nat.succ j =>
      simpa using ih p2.1 p2.2 (by rw [hp2]) j

theorem updatePrefixCache_delta (requests : List Request) :
    ∀ (s s' : EngineState) (evs : List Event),
      UpdatePrefixCache requests s = some (s', evs) →
      ∀ rid i, ((s'.GetRequestState rid).entries.getD i default).delta_ret =
        ((s.GetRequestState rid).entries.getD i default).delta_ret := by
  induction requests with
  | nil =>
    intro s s' evs h rid i
    cases h
    rfl
  | cons r rest ih =>
    intro s s' evs h rid i
    unfold UpdatePrefixCache at h
    simp only [bind, Option.bind_eq_some, pure, Option.some.injEq, Prod.mk.injEq] at h
    obtain ⟨p1, h1, p2, h2, h3, -⟩ := h
    subst h3
    rw [ih _ _ _ h2 rid i]
    by_cases hr : rid = r.id
    · subst hr
      rw [getRS_set_self]
      exact updPCEntries_delta _ _ _ _ h1 i
    · rw [getRS_set_ne _ _ _ _ hr]

theorem collectRequest_congr (a b : EngineState) (r : Request)
    (hdelta : ∀ i, ((a.GetRequestState r.id).entries.getD i default).delta_ret =
      ((b.GetRequestState r.id).entries.getD i default).delta_ret) :
    collectRequest a r = collectRequest b r := by
  have hsel : ∀ i, (selectEntry (a.GetRequestState r.id) r.generation_cfg.n i).delta_ret =
      (selectEntry (b.GetRequestState r.id) r.generation_cfg.n i).delta_ret := by
    intro i
    unfold selectEntry
    by_cases hn : r.generation_cfg.n = 1
    · rw [if_pos hn, if_pos hn]
      exact hdelta 0
    · rw [if_neg hn, if_neg hn]
      exact hdelta (i + 1)
  simp only [collectRequest]
  have hrets : (List.range r.generation_cfg.n).map
      (fun i => (selectEntry (a.GetRequestState r.id) r.generation_cfg.n i).delta_ret) =
      (List.range r.generation_cfg.n).map
      (fun i => (selectEntry (b.GetRequestState r.id) r.generation_cfg.n i).delta_ret) :=
    List.map_congr_left (fun i _ => hsel i)
  have hfin : (List.range r.generation_cfg.n).filterMap (fun i =>
      if ((selectEntry (a.GetRequestState r.id) r.generation_cfg.n
          i).delta_ret.finish_reason).isSome then
        some (r.id, if r.generation_cfg.n = 1 then 0 else i + 1)
      else none) =
      (List.range r.generation_cfg.n).filterMap (fun i =>
      if ((selectEntry (b.GetRequestState r.id) r.generation_cfg.n
          i).delta_ret.finish_reason).isSome then
        some (r.id, if r.generation_cfg.n = 1 then 0 else i + 1)
      else none) :=
    List.filterMap_congr (fun i _ => by rw [hsel i])
  rw [hrets, hfin]

theorem collectRequest_isSome (s : EngineState) (r : Request) :
    ((collectRequest s r).1).isSome = true ↔
      ∃ i, i < r.generation_cfg.n ∧
        ((selectEntry (s.GetRequestState r.id)
            r.generation_cfg.n i).delta_ret.finish_reason.isSome = true ∨
          (selectEntry (s.GetRequestState r.id)
            r.generation_cfg.n i).delta_ret.delta_token_ids ≠ []) := by
  simp only [collectRequest]
  by_cases hinv : ((List.range r.generation_cfg.n).map
      (fun i => (selectEntry (s.GetRequestState r.id) r.generation_cfg.n i).delta_ret)).any
      (fun dr => dr.finish_reason.isSome || !(dr.delta_token_ids.isEmpty)) = true
  · rw [if_pos hinv]
    simp only [Option.isSome_some, true_iff]
    rw [List.any_eq_true] at hinv
    obtain ⟨dr, hdr, hp⟩ := hinv
    rcases List.mem_map.mp hdr with ⟨i, hi, hdi⟩
    refine ⟨i, List.mem_range.mp hi, ?_⟩
    rw [← hdi] at hp
    simp only [Bool.or_eq_true] at hp
    rcases hp with h0 | h0
    · left
      exact h0
    · right
      rw [Bool.not_eq_true'] at h0
      rw [List.isEmpty_eq_false] at h0
      exact h0
  · rw [if_neg hinv]
    simp only [Option.isSome_none, Bool.false_eq_true, false_iff]
    intro hex
    apply hinv
    obtain ⟨i, hi, hp⟩ := hex
    rw [List.any_eq_true]
    refine ⟨(selectEntry (s.GetRequestState r.id) r.generation_cfg.n i).delta_ret,
      List.mem_map_of_mem _ (List.mem_range.mpr hi), ?_⟩
    rcases hp with h0 | h0
    · simp [h0]
    · have h1 : (selectEntry (s.GetRequestState r.id) r.generation_cfg.n
          i).delta_ret.delta_token_ids.isEmpty = false :=
        List.isEmpty_eq_false.mpr h0
      simp [h1]

theorem collectRequest_logprobs (s : EngineState) (r : Request) (o : RequestStreamOutput)
    (h : (collectRequest s r).1 = some o) :
    (o.group_delta_logprob_json_strs.isSome = true ↔ 0 < r.generation_cfg.logprobs) := by
  simp only [collectRequest] at h
  by_cases hinv : ((List.range r.generation_cfg.n).map
      (fun i => (selectEntry (s.GetRequestState r.id) r.generation_cfg.n i).delta_ret)).any
      (fun dr => dr.finish_reason.isSome || !(dr.delta_token_ids.isEmpty)) = true
  · rw [if_pos hinv] at h
    injection h with h1
    rw [← h1]
    by_cases hlp : r.generation_cfg.logprobs > 0
    · simp [hlp]
    · simp only [hlp, if_false]
      simp only [Option.isSome_none, Bool.false_eq_true, false_iff]
  · rw [if_neg hinv] at h
    cases h

/-- Claim C6: in one `ActionStepPostProcess` invocation the stream callback
fires exactly once — its event sits between the prefix-cache extend events
(so before any erase) and the finish-processing events, none of which is a
callback; its batch contains an output for a request iff one of the
request's n generation entries produced non-empty delta token ids or a
defined finish reason; logprob strings are attached iff
`generation_cfg.logprobs > 0`; and every erasure of a finished request comes
after the callback in the trace. -/
theorem C6_stream_callback_once (requests : List Request) (s : EngineState) (tnow : Int)
    (s' : EngineState) (tr : List Event)
    (h : ActionStepPostProcess requests s tnow = some (s', tr)) :
    (∃ pre post,
      tr = pre ++ [Event.streamCallback
        (requests.filterMap (fun r => (collectRequest s r).1))] ++ post ∧
      (∀ ev ∈ pre, ∃ id ts, ev = Event.extendSeq id ts) ∧
      (∀ ev ∈ pre, ev.isStreamCallback = false ∧ ev.isErase = false) ∧
      (∀ ev ∈ post, ev.isStreamCallback = false)) ∧
    (∀ r, ((collectRequest s r).1).isSome = true ↔
      ∃ i, i < r.generation_cfg.n ∧
        ((selectEntry (s.GetRequestState r.id)
            r.generation_cfg.n i).delta_ret.finish_reason.isSome = true ∨
          (selectEntry (s.GetRequestState r.id)
            r.generation_cfg.n i).delta_ret.delta_token_ids ≠ [])) ∧
    (∀ r o, (collectRequest s r).1 = some o →
      (o.group_delta_logprob_json_strs.isSome = true ↔ 0 < r.generation_cfg.logprobs)) := by
  refine ⟨?_, fun r => collectRequest_isSome s r, fun r o => collectRequest_logprobs s r o⟩
  unfold ActionStepPostProcess at h
  simp only [bind, Option.bind_eq_some, pure, Option.some.injEq, Prod.mk.injEq] at h
  obtain ⟨p1, hp1, -, htr⟩ := h
  have hcoll : ∀ r, collectRequest p1.1 r = collectRequest s r := by
    intro r
    apply collectRequest_congr
    intro i
    exact updatePrefixCache_delta requests _ _ _ hp1 r.id i
  have houts : requests.filterMap (fun r => (collectRequest p1.1 r).1) =
      requests.filterMap (fun r => (collectRequest s r).1) :=
    List.filterMap_congr (fun r _ => by rw [hcoll r])
  rw [houts] at htr
  refine ⟨p1.2, (ProcessFinishedRequestStateEntries
    ((requests.map (fun r => (collectRequest p1.1 r).2)).flatten) p1.1 tnow).2,
    htr.symm, ?_, ?_, ?_⟩
  · intro ev hev
    exact updatePrefixCache_events_shape requests _ _ _ hp1 ev hev
  · intro ev hev
    obtain ⟨id, ts, hty⟩ := updatePrefixCache_events_shape requests _ _ _ hp1 ev hev
    rw [hty]
    exact ⟨rfl, rfl⟩
  · intro ev hev
    exact processList_events_shape tnow _ _ ev hev

/-- Witness for C6 at a concrete input: the step on request "w" (one entry
with a non-empty delta) produces a trace whose only callback carries exactly
the one output of request "w". -/
theorem C6_stream_callback_once_witness :
    ∃ pre post, ((ActionStepPostProcess [reqW] stateW 30).getD (stateW, [])).2 =
      pre ++ [Event.streamCallback
        ([reqW].filterMap (fun r => (collectRequest stateW r).1))] ++ post ∧
      (∀ ev ∈ pre, ∃ id ts, ev = Event.extendSeq id ts) := by
  have hsome : ActionStepPostProcess [reqW] stateW 30 =
      some ((ActionStepPostProcess [reqW] stateW 30).getD (stateW, [])) := rfl
  obtain ⟨⟨pre, post, htr, hpre, -, -⟩, -, -⟩ :=
    C6_stream_callback_once [reqW] stateW 30 _ _ hsome
  exact ⟨pre, post, htr, hpre⟩

end MlcServe
